import Mathlib

/-!
Verification of the Ultimate Tic-Tac-Toe engine (game.py, ai.py).

Shallow embedding notes:
  * Python strings 'X', 'O' for players become `Joueur`; board cells
    (' ', 'X', 'O') become `Cell`; the `vainqueur` attribute
    (None, 'X', 'O', "DRAW") becomes `Option Vainq`.
  * Python lists-of-lists grids become functions `Fin 3 → Fin 3 → Cell`;
    indices arriving from outside are `Nat` and are range-checked exactly
    where the source checks them.  The total getters return a default
    value out of range; every in-program access is guarded by the same
    range checks the source performs, so the default is never observed.
  * In-place mutation becomes explicit state passing: a Python method that
    mutates `self` and returns a boolean becomes a function returning
    `Bool × State`.
  * `float('-inf')`, `float('inf')` and integer scores become `XInt`
    (integers extended with two infinities).
  * `random.random() < p` and `random.choice` become an explicit oracle:
    a boolean telling which branch the random draw took, and natural
    numbers used as choice indices (reduced mod the list length).
    `random.choice` on an empty list raises IndexError in Python; it is
    modelled as `Except.error`.
-/

set_option maxRecDepth 100000

set_option maxHeartbeats 4000000

/-- Player symbol: Python 'X' / 'O'. -/
inductive Joueur where
  | X : Joueur
  | O : Joueur

deriving DecidableEq, Repr

/-- Cell content of a 3×3 grid: Python ' ', 'X', 'O'. -/
inductive Cell where
  | E : Cell
  | CX : Cell
  | CO : Cell

deriving DecidableEq, Repr

/-- Value of `PetitPlateau.vainqueur` when not None: 'X', 'O' or "DRAW". -/
inductive Vainq where
  | vj : Joueur → Vainq
  | draw : Vainq

deriving DecidableEq, Repr

/-- `'O' if joueur == 'X' else 'X'` — the opponent symbol. -/
def Joueur.adversaire : Joueur → Joueur
  | Joueur.X => Joueur.O
  | Joueur.O => Joueur.X

/-- The cell written when `joueur` plays. -/
def Joueur.toCell : Joueur → Cell
  | Joueur.X => Cell.CX
  | Joueur.O => Cell.CO

/-- `[0, 1, 2]`, i.e. Python `range(3)` materialised. -/
def idx3 : List Nat := [0, 1, 2]

/-- Row-major pairs `(i, j)` for `i, j in range(3)` — the nested loop order
used throughout `game.py`. -/
def pairs3 : List (Nat × Nat) := idx3.flatMap (fun i => idx3.map (fun j => (i, j)))

/-- State of class `PetitPlateau` (game.py): a single 3×3 sub-board. -/
structure PetitPlateau where
  plateau : Fin 3 → Fin 3 → Cell
  vainqueur : Option Vainq
  jeu_termine : Bool

deriving DecidableEq

/-- The state produced by `PetitPlateau.reinitialiser` (empty grid, no
winner, not finished) — also the `__init__` state. -/
def PetitPlateau.initial : PetitPlateau :=
  { plateau := fun _ _ => Cell.E, vainqueur := none, jeu_termine := false }

/-- Total read of `self.plateau[l][c]`; out-of-range reads (which would
raise in Python and are never performed by the source) give `Cell.E`. -/
def PetitPlateau.get (p : PetitPlateau) (l c : Nat) : Cell :=
  if h : l < 3 ∧ c < 3 then p.plateau ⟨l, h.1⟩ ⟨c, h.2⟩ else Cell.E

/-- Write `self.plateau[l][c] = v`; out of range it is the identity (the
source only writes after the range check in `coup_valide`). -/
def PetitPlateau.set (p : PetitPlateau) (l c : Nat) (v : Cell) : PetitPlateau :=
  if h : l < 3 ∧ c < 3 then
    { p with plateau := fun i j =>
        if i = (⟨l, h.1⟩ : Fin 3) ∧ j = (⟨c, h.2⟩ : Fin 3) then v else p.plateau i j }
  else p

/-- `PetitPlateau.coup_valide(ligne, colonne)`: indices in range, cell
empty, sub-board still running. -/
def PetitPlateau.coup_valide (p : PetitPlateau) (ligne colonne : Nat) : Bool :=
  decide (ligne < 3) && decide (colonne < 3) &&
    decide (p.get ligne colonne = Cell.E) && !p.jeu_termine

/-- `all(self.plateau[i][j] == joueur for j in range(3))` for row `i`. -/
def PetitPlateau.rowAll (p : PetitPlateau) (i : Nat) (joueur : Joueur) : Bool :=
  idx3.all (fun j => decide (p.get i j = joueur.toCell))

/-- `all(self.plateau[j][i] == joueur for j in range(3))` for column `i`. -/
def PetitPlateau.colAll (p : PetitPlateau) (i : Nat) (joueur : Joueur) : Bool :=
  idx3.all (fun j => decide (p.get j i = joueur.toCell))

/-- The win test of `verifier_etat`: some row, column or diagonal entirely
holds `joueur`.  The source scans row i / column i for i = 0..2 then both
diagonals, returning at the first hit; every hit writes the same state, so
the scan is a disjunction. -/
def PetitPlateau.gagne (p : PetitPlateau) (joueur : Joueur) : Bool :=
  idx3.any (fun i => p.rowAll i joueur || p.colAll i joueur) ||
    (decide (p.get 0 0 = joueur.toCell) && decide (p.get 1 1 = joueur.toCell) &&
      decide (p.get 2 2 = joueur.toCell)) ||
    (decide (p.get 0 2 = joueur.toCell) && decide (p.get 1 1 = joueur.toCell) &&
      decide (p.get 2 0 = joueur.toCell))

/-- `PetitPlateau.est_nul()`: no empty cell left (the name also evokes
"no winner", but the source only checks fullness; it is called after the
win checks). -/
def PetitPlateau.est_nul (p : PetitPlateau) : Bool :=
  pairs3.all (fun ij => decide (p.get ij.1 ij.2 ≠ Cell.E))

/-- `PetitPlateau.verifier_etat(joueur)`: records a win of `joueur`, else
a draw when the grid is full, else leaves the state alone. -/
def PetitPlateau.verifier_etat (p : PetitPlateau) (joueur : Joueur) : PetitPlateau :=
  if p.gagne joueur then
    { p with vainqueur := some (Vainq.vj joueur), jeu_termine := true }
  else if p.est_nul then
    { p with vainqueur := some Vainq.draw, jeu_termine := true }
  else p

/-- `PetitPlateau.jouer_coup(ligne, colonne, joueur)`: mutates and returns
True on a legal move, returns False leaving the state alone otherwise. -/
def PetitPlateau.jouer_coup (p : PetitPlateau) (ligne colonne : Nat) (joueur : Joueur) :
    Bool × PetitPlateau :=
  if p.coup_valide ligne colonne then
    (true, ((p.set ligne colonne joueur.toCell).verifier_etat joueur))
  else
    (false, p)

/-- `PetitPlateau.obtenir_vainqueur()`. -/
def PetitPlateau.obtenir_vainqueur (p : PetitPlateau) : Option Vainq :=
  p.vainqueur

/-- `PetitPlateau.dupliquer()` — a deep copy; on the pure state it is the
identity (the aliasing content of the copy is studied in the heap model
below). -/
def PetitPlateau.dupliquer (p : PetitPlateau) : PetitPlateau := p

/-- Value of a cell of the virtual grid `global_p` built by
`mettre_a_jour_etat_global`: ' ', 'X', 'O' or "DRAW". -/
inductive GCell where
  | gE : GCell
  | gJ : Joueur → GCell
  | gDraw : GCell

deriving DecidableEq, Repr

/-- `vainq if vainq is not None else ' '` — the meta-grid entry for one
sub-board winner. -/
def GCell.ofVainqueur : Option Vainq → GCell
  | none => GCell.gE
  | some (Vainq.vj j) => GCell.gJ j
  | some Vainq.draw => GCell.gDraw

/-- State of class `MorpionUltime` (game.py). -/
structure MorpionUltime where
  plateaux : Fin 3 → Fin 3 → PetitPlateau
  joueur_courant : Joueur
  plateau_actif : Option (Nat × Nat)
  jeu_termine : Bool
  vainqueur : Option Joueur

deriving DecidableEq

/-- The state produced by `MorpionUltime.reinitialiser` (and `__init__`):
nine empty sub-boards, X to move, free choice of sub-board. -/
def MorpionUltime.initial : MorpionUltime :=
  { plateaux := fun _ _ => PetitPlateau.initial
    joueur_courant := Joueur.X
    plateau_actif := none
    jeu_termine := false
    vainqueur := none }

/-- Total read of `self.plateaux[l][c]`; the source always range-checks
first, so the out-of-range default is never observed. -/
def MorpionUltime.getP (s : MorpionUltime) (l c : Nat) : PetitPlateau :=
  if h : l < 3 ∧ c < 3 then s.plateaux ⟨l, h.1⟩ ⟨c, h.2⟩ else PetitPlateau.initial

/-- Write `self.plateaux[l][c] = p` (identity out of range, which the
source never does). -/
def MorpionUltime.setP (s : MorpionUltime) (l c : Nat) (p : PetitPlateau) : MorpionUltime :=
  if h : l < 3 ∧ c < 3 then
    { s with plateaux := fun i j =>
        if i = (⟨l, h.1⟩ : Fin 3) ∧ j = (⟨c, h.2⟩ : Fin 3) then p else s.plateaux i j }
  else s

/-- `MorpionUltime.coup_valide(sp_l, sp_c, cel_l, cel_c)`: sub-board
indices in range, targeted sub-board not finished, active-sub-board
constraint respected, and the cell itself playable. -/
def MorpionUltime.coup_valide (s : MorpionUltime) (sp_l sp_c cel_l cel_c : Nat) : Bool :=
  if ¬ (sp_l < 3 ∧ sp_c < 3) then false
  else
    let plateau := s.getP sp_l sp_c
    if plateau.jeu_termine then false
    else if s.plateau_actif ≠ none ∧ s.plateau_actif ≠ some (sp_l, sp_c) then false
    else plateau.coup_valide cel_l cel_c

/-- The meta-grid `global_p` of `mettre_a_jour_etat_global`, read through
the total `Nat` indexer used by the winning-combination scan. -/
def MorpionUltime.globalP (s : MorpionUltime) (i j : Nat) : GCell :=
  GCell.ofVainqueur (s.getP i j).obtenir_vainqueur

/-- Is `g` a winning row head: `g != ' ' and g != "DRAW"`. -/
def GCell.estSymbole : GCell → Option Joueur
  | GCell.gJ j => some j
  | _ => none

/-- One line test of step 2 of `mettre_a_jour_etat_global`: the three
meta-cells `a`, `b`, `c` equal and a real symbol; gives that symbol. -/
def ligneGagnante (a b c : GCell) : Option Joueur :=
  match a.estSymbole with
  | some j => if b = a ∧ c = a then some j else none
  | none => none

/-- Step 2 of `mettre_a_jour_etat_global`: scan row 0, column 0, row 1,
column 1, row 2, column 2, main diagonal, anti-diagonal, in the order of
the source, returning the first completed line's symbol. -/
def MorpionUltime.chercheVainqueurGlobal (s : MorpionUltime) : Option Joueur :=
  let g := s.globalP
  (ligneGagnante (g 0 0) (g 0 1) (g 0 2)).orElse fun _ =>
  (ligneGagnante (g 0 0) (g 1 0) (g 2 0)).orElse fun _ =>
  (ligneGagnante (g 1 0) (g 1 1) (g 1 2)).orElse fun _ =>
  (ligneGagnante (g 0 1) (g 1 1) (g 2 1)).orElse fun _ =>
  (ligneGagnante (g 2 0) (g 2 1) (g 2 2)).orElse fun _ =>
  (ligneGagnante (g 0 2) (g 1 2) (g 2 2)).orElse fun _ =>
  (ligneGagnante (g 0 0) (g 1 1) (g 2 2)).orElse fun _ =>
  (ligneGagnante (g 0 2) (g 1 1) (g 2 0))

/-- `all(self.plateaux[i][j].jeu_termine ...)` — step 3's test. -/
def MorpionUltime.tousTermines (s : MorpionUltime) : Bool :=
  pairs3.all (fun ij => (s.getP ij.1 ij.2).jeu_termine)

/-- The `combinaisons` list of `mettre_a_jour_etat_global`: the 8 winning
triples of sub-board positions, verbatim from the source. -/
def combinaisons : List (List (Nat × Nat)) :=
  [[(0,0),(0,1),(0,2)], [(1,0),(1,1),(1,2)], [(2,0),(2,1),(2,2)],
   [(0,0),(1,0),(2,0)], [(0,1),(1,1),(2,1)], [(0,2),(1,2),(2,2)],
   [(0,0),(1,1),(2,2)], [(0,2),(1,1),(2,0)]]

/-- `peut_encore_gagner(joueur)`: some winning triple whose meta-cells all
lie in `[joueur, ' ']`.  Note that a "DRAW" meta-cell is in neither
player's list, so a drawn sub-board blocks a triple for both symbols. -/
def MorpionUltime.peut_encore_gagner (s : MorpionUltime) (joueur : Joueur) : Bool :=
  combinaisons.any (fun combo =>
    combo.all (fun rc =>
      decide (s.globalP rc.1 rc.2 = GCell.gJ joueur ∨ s.globalP rc.1 rc.2 = GCell.gE)))

/-- `MorpionUltime.mettre_a_jour_etat_global()`: global win scan, full
draw, then the anticipated draw ("no theoretical victory left"). -/
def MorpionUltime.mettre_a_jour_etat_global (s : MorpionUltime) : MorpionUltime :=
  match s.chercheVainqueurGlobal with
  | some j => { s with vainqueur := some j, jeu_termine := true }
  | none =>
    if s.tousTermines then { s with jeu_termine := true, vainqueur := none }
    else if ¬ s.peut_encore_gagner Joueur.X ∧ ¬ s.peut_encore_gagner Joueur.O then
      { s with jeu_termine := true, vainqueur := none }
    else s

/-- `MorpionUltime.jouer_coup(sp_l, sp_c, cel_l, cel_c)`: validate, place
into the targeted sub-board, recompute the global outcome, set the next
forced sub-board, flip the player if the game goes on. -/
def MorpionUltime.jouer_coup (s : MorpionUltime) (sp_l sp_c cel_l cel_c : Nat) :
    Bool × MorpionUltime :=
  if ¬ s.coup_valide sp_l sp_c cel_l cel_c || s.jeu_termine then (false, s)
  else
    let plateau := s.getP sp_l sp_c
    let r := plateau.jouer_coup cel_l cel_c s.joueur_courant
    -- `plateau` aliases `self.plateaux[sp_l][sp_c]`: the mutation is
    -- visible in the global state whether or not the inner call succeeds.
    let s1 := s.setP sp_l sp_c r.2
    if ¬ r.1 then (false, s1)
    else
      let s2 := s1.mettre_a_jour_etat_global
      let s3 := { s2 with
        plateau_actif :=
          if (s2.getP cel_l cel_c).jeu_termine then none else some (cel_l, cel_c) }
      if ¬ s3.jeu_termine then
        (true, { s3 with joueur_courant := s3.joueur_courant.adversaire })
      else (true, s3)

/-- `MorpionUltime.obtenir_coups_valides()`: all playable cells of the
forced sub-board, or of every unfinished sub-board, in row-major order.
The global `jeu_termine` flag is not consulted. -/
def MorpionUltime.obtenir_coups_valides (s : MorpionUltime) :
    List (Nat × Nat × Nat × Nat) :=
  match s.plateau_actif with
  | some sp =>
    let plateau := s.getP sp.1 sp.2
    (pairs3.filter (fun ij => plateau.coup_valide ij.1 ij.2)).map
      (fun ij => (sp.1, sp.2, ij.1, ij.2))
  | none =>
    pairs3.flatMap (fun sp =>
      let plateau := s.getP sp.1 sp.2
      if plateau.jeu_termine then []
      else
        (pairs3.filter (fun ij => plateau.coup_valide ij.1 ij.2)).map
          (fun ij => (sp.1, sp.2, ij.1, ij.2)))

/-- `MorpionUltime.obtenir_vainqueur()`. -/
def MorpionUltime.obtenir_vainqueur (s : MorpionUltime) : Option Joueur :=
  s.vainqueur

/-- `MorpionUltime.dupliquer()` — deep copy; identity on the pure state
(the aliasing content is studied in the heap model below). -/
def MorpionUltime.dupliquer (s : MorpionUltime) : MorpionUltime := s

/-- Integers extended with `float('-inf')` and `float('inf')`, the only
float values the search code manipulates besides integer scores. -/
inductive XInt where
  | ninf : XInt
  | val : Int → XInt
  | pinf : XInt

deriving DecidableEq, Repr

/-- Order on `XInt` (Python `<=` between scores and infinities). -/
def XInt.le : XInt → XInt → Bool
  | XInt.ninf, _ => true
  | _, XInt.pinf => true
  | XInt.val a, XInt.val b => decide (a ≤ b)
  | XInt.pinf, XInt.val _ => false
  | XInt.pinf, XInt.ninf => false
  | XInt.val _, XInt.ninf => false

/-- Strict order on `XInt` (Python `<`). -/
def XInt.lt (a b : XInt) : Bool := ! XInt.le b a

/-- Python `max` on two scores. -/
def XInt.max (a b : XInt) : XInt := if XInt.le a b then b else a

/-- Python `min` on two scores. -/
def XInt.min (a b : XInt) : XInt := if XInt.le a b then a else b

/-- `evaluer_ligne(ligne, joueur)` (ai.py): 0 on a mixed or empty line,
`10 ** count` for the player's own line, the negative for the opponent. -/
def evaluer_ligne (ligne : List Cell) (joueur : Joueur) : Int :=
  let adversaire := joueur.adversaire
  if ligne.contains joueur.toCell ∧ ligne.contains adversaire.toCell then 0
  else if ligne.contains joueur.toCell then (10 : Int) ^ (ligne.count joueur.toCell)
  else if ligne.contains adversaire.toCell then -((10 : Int) ^ (ligne.count adversaire.toCell))
  else 0

/-- Row `r` of a sub-board as the list `plateau.plateau[r]`. -/
def PetitPlateau.row (p : PetitPlateau) (r : Nat) : List Cell :=
  [p.get r 0, p.get r 1, p.get r 2]

/-- Column `c` of a sub-board as a list. -/
def PetitPlateau.col (p : PetitPlateau) (c : Nat) : List Cell :=
  [p.get 0 c, p.get 1 c, p.get 2 c]

/-- Main diagonal of a sub-board. -/
def PetitPlateau.diag1 (p : PetitPlateau) : List Cell :=
  [p.get 0 0, p.get 1 1, p.get 2 2]

/-- Anti-diagonal of a sub-board. -/
def PetitPlateau.diag2 (p : PetitPlateau) : List Cell :=
  [p.get 0 2, p.get 1 1, p.get 2 0]

/-- `evaluer_sous_plateau(plateau, joueur)` (ai.py): centre-cell bonus
plus the line scores of the 3 rows, 3 columns and 2 diagonals. -/
def evaluer_sous_plateau (plateau : PetitPlateau) (joueur : Joueur) : Int :=
  let centre : Int :=
    if plateau.get 1 1 = joueur.toCell then 20
    else if plateau.get 1 1 = joueur.adversaire.toCell then -20
    else 0
  centre
    + (idx3.map (fun r => evaluer_ligne (plateau.row r) joueur)).sum
    + (idx3.map (fun c => evaluer_ligne (plateau.col c) joueur)).sum
    + evaluer_ligne plateau.diag1 joueur
    + evaluer_ligne plateau.diag2 joueur

/-- The loop body of step 1 of `evaluer_ultime` for one sub-board `sp`:
±10000 when `sp.vainqueur` equals the player or the opponent, else the
internal evaluation — a drawn sub-board (`vainqueur == "DRAW"`) falls
into the `else` branch and is evaluated internally. -/
def contribSub (sp : PetitPlateau) (joueur : Joueur) : Int :=
  if sp.vainqueur = some (Vainq.vj joueur) then 10000
  else if sp.vainqueur = some (Vainq.vj joueur.adversaire) then -10000
  else evaluer_sous_plateau sp joueur

/-- `w if w and w != 'DRAW' else ' '` — entry of the virtual plateau `pg`
of step 2 of `evaluer_ultime`. -/
def pgCell (w : Option Vainq) : Cell :=
  match w with
  | some (Vainq.vj j) => j.toCell
  | _ => Cell.E

/-- `evaluer_ultime(partie, joueur)` (ai.py): sum of the decided /
internal scores of the 9 sub-boards, plus the line scores of the virtual
global plateau weighted by 10. -/
def evaluer_ultime (partie : MorpionUltime) (joueur : Joueur) : Int :=
  let score1 := (pairs3.map (fun ij => contribSub (partie.getP ij.1 ij.2) joueur)).sum
  let pg : Nat → Nat → Cell := fun i j => pgCell (partie.getP i j).vainqueur
  score1
    + (idx3.map (fun r => evaluer_ligne [pg r 0, pg r 1, pg r 2] joueur * 10)).sum
    + (idx3.map (fun c => evaluer_ligne [pg 0 c, pg 1 c, pg 2 c] joueur * 10)).sum
    + evaluer_ligne [pg 0 0, pg 1 1, pg 2 2] joueur * 10
    + evaluer_ligne [pg 0 2, pg 1 1, pg 2 0] joueur * 10

/-- The 8 lines of a sub-board in the order built by `evaluer_difficile`:
3 rows, 3 columns, the two diagonals. -/
def PetitPlateau.lignes (sp : PetitPlateau) : List (List Cell) :=
  (idx3.map (fun r => sp.row r)) ++ (idx3.map (fun c => sp.col c)) ++ [sp.diag1, sp.diag2]

/-- The fork bonus/penalty of `evaluer_difficile` for one unfinished
sub-board: ±300 when a symbol has two immediate one-move threats. -/
def forkContrib (sp : PetitPlateau) (joueur : Joueur) : Int :=
  if sp.jeu_termine then 0
  else
    let adversaire := joueur.adversaire
    let men_joueur := (sp.lignes.filter (fun l =>
      decide (l.count joueur.toCell = 2) && decide (l.count Cell.E = 1))).length
    let men_adv := (sp.lignes.filter (fun l =>
      decide (l.count adversaire.toCell = 2) && decide (l.count Cell.E = 1))).length
    (if men_joueur ≥ 2 then (300 : Int) else 0) + (if men_adv ≥ 2 then (-300 : Int) else 0)

/-- `evaluer_difficile(partie, joueur)` (ai.py): the base heuristic, a
mobility bonus equal to the number of currently enumerable moves, and the
fork adjustments. -/
def evaluer_difficile (partie : MorpionUltime) (joueur : Joueur) : Int :=
  evaluer_ultime partie joueur
    + (partie.obtenir_coups_valides).length
    + (pairs3.map (fun ij => forkContrib (partie.getP ij.1 ij.2) joueur)).sum

/-- A move quadruple `(sp_l, sp_c, cel_l, cel_c)`. -/
abbrev Coup := Nat × Nat × Nat × Nat

/-- `clone = partie.dupliquer(); clone.jouer_coup(*mv)` — the board a
strategy scores for a candidate move, whether or not the inner call
succeeded (on the pure state `dupliquer` is the identity). -/
def cloneApres (partie : MorpionUltime) (mv : Coup) : MorpionUltime :=
  (partie.dupliquer.jouer_coup mv.1 mv.2.1 mv.2.2.1 mv.2.2.2).2

/-- One iteration of the move loop of `IAFacile.get_move`: keep the move
when its score strictly beats the best so far (`-inf` initially). -/
def IAFacile.step (partie : MorpionUltime) (joueur : Joueur)
    (acc : XInt × Option Coup) (mv : Coup) : XInt × Option Coup :=
  let sc := XInt.val (evaluer_ultime (cloneApres partie mv) joueur)
  if XInt.lt acc.1 sc then (sc, some mv) else acc

/-- `IAFacile.get_move(partie)` (ai.py): depth-1 greedy choice by the
baseline heuristic; `None` survives only when the move list is empty. -/
def IAFacile.get_move (joueur : Joueur) (partie : MorpionUltime) : Option Coup :=
  ((partie.obtenir_coups_valides).foldl (IAFacile.step partie joueur)
    (XInt.ninf, none)).2

/-- `self.profondeur_max` of IAMoyenne. -/
def IAMoyenne.profondeur_max : Nat := 3

/-- `IAMoyenne.minimax(partie, profondeur, est_max)` (ai.py), written on
the remaining depth `profondeur_max - profondeur` (the source increments
`profondeur` to `profondeur_max` exactly; on inputs past the bound, where
the Python recursion would never return, the embedding evaluates). -/
def IAMoyenne.minimax (joueur : Joueur) : Nat → MorpionUltime → Bool → XInt
  | 0, partie, _ => XInt.val (evaluer_ultime partie joueur)
  | fuel+1, partie, est_max =>
    if partie.jeu_termine then XInt.val (evaluer_ultime partie joueur)
    else if est_max then
      (partie.obtenir_coups_valides).foldl
        (fun m mv => XInt.max m (IAMoyenne.minimax joueur fuel (cloneApres partie mv) false))
        XInt.ninf
    else
      (partie.obtenir_coups_valides).foldl
        (fun m mv => XInt.min m (IAMoyenne.minimax joueur fuel (cloneApres partie mv) true))
        XInt.pinf

/-- Outcome of the random draws one `IAMoyenne.get_move` call makes:
whether `random.random() < self.taux_erreur_strategique` fired, and the
indices backing the two possible `random.choice` calls. -/
structure AleaOracle where
  coupAleatoire : Bool
  indice : Nat
  indiceEgalite : Nat

/-- `random.choice(l)` driven by an oracle index: an arbitrary element of
`l`, and an IndexError — `Except.error` — on the empty list. -/
def randomChoice (idx : Nat) : List α → Except Unit α
  | [] => Except.error ()
  | x :: xs => Except.ok ((x :: xs).get ⟨idx % (xs.length + 1), Nat.mod_lt _ (Nat.succ_pos _)⟩)

/-- One iteration of the root loop of `IAMoyenne.get_move`: a strictly
better score resets the tie list, an equal score appends to it. -/
def IAMoyenne.step (partie : MorpionUltime) (joueur : Joueur)
    (acc : XInt × List Coup) (mv : Coup) : XInt × List Coup :=
  let sc := IAMoyenne.minimax joueur (IAMoyenne.profondeur_max - 1) (cloneApres partie mv) false
  if XInt.lt acc.1 sc then (sc, [mv])
  else if sc = acc.1 then (acc.1, acc.2 ++ [mv])
  else acc

/-- `IAMoyenne.get_move(partie)` (ai.py): with the oracle's error branch a
uniformly random legal move, else a random element of the minimax tie
list.  Both paths go through `random.choice`, so both raise — never
return None — when no move exists.  (The random branch also scores its
move for the `score_dernier_coup` diagnostic, which is not part of the
returned value.) -/
def IAMoyenne.get_move (joueur : Joueur) (o : AleaOracle) (partie : MorpionUltime) :
    Except Unit Coup :=
  if o.coupAleatoire then
    randomChoice o.indice partie.obtenir_coups_valides
  else
    let r := (partie.obtenir_coups_valides).foldl (IAMoyenne.step partie joueur)
      (XInt.ninf, [])
    randomChoice o.indiceEgalite r.2

/-- `self.profondeur_max` of IADifficile. -/
def IADifficile.profondeur_max : Nat := 4

/-- The maximizing loop of `IADifficile.minimax`: running value `v`,
alpha updated after each child, early exit when `alpha >= beta`.  The
child evaluation `next` receives the alpha/beta current at call time. -/
def abBoucleMax (next : MorpionUltime → XInt → XInt → XInt) (partie : MorpionUltime) :
    List Coup → XInt → XInt → XInt → XInt
  | [], v, _, _ => v
  | mv :: rest, v, alpha, beta =>
    let v2 := XInt.max v (next (cloneApres partie mv) alpha beta)
    let alpha2 := XInt.max alpha v2
    if XInt.le beta alpha2 then v2
    else abBoucleMax next partie rest v2 alpha2 beta

/-- The minimizing loop of `IADifficile.minimax`, symmetric to
`abBoucleMax` with beta updates. -/
def abBoucleMin (next : MorpionUltime → XInt → XInt → XInt) (partie : MorpionUltime) :
    List Coup → XInt → XInt → XInt → XInt
  | [], v, _, _ => v
  | mv :: rest, v, alpha, beta =>
    let v2 := XInt.min v (next (cloneApres partie mv) alpha beta)
    let beta2 := XInt.min beta v2
    if XInt.le beta2 alpha then v2
    else abBoucleMin next partie rest v2 alpha beta2

/-- `IADifficile.minimax(partie, profondeur, alpha, beta, est_max)`
(ai.py), on the remaining depth as for `IAMoyenne.minimax`, with the
advanced heuristic at the leaves. -/
def IADifficile.minimax (joueur : Joueur) : Nat → MorpionUltime → XInt → XInt → Bool → XInt
  | 0, partie, _, _, _ => XInt.val (evaluer_difficile partie joueur)
  | fuel+1, partie, alpha, beta, est_max =>
    if partie.jeu_termine then XInt.val (evaluer_difficile partie joueur)
    else if est_max then
      abBoucleMax (fun c a b => IADifficile.minimax joueur fuel c a b false) partie
        partie.obtenir_coups_valides XInt.ninf alpha beta
    else
      abBoucleMin (fun c a b => IADifficile.minimax joueur fuel c a b true) partie
        partie.obtenir_coups_valides XInt.pinf alpha beta

/-- One iteration of the root loop of `IADifficile.get_move`: accumulator
`(meilleur_score, meilleur_coup, alpha)`, root beta fixed at `+inf`;
alpha is raised to the best score after each candidate. -/
def IADifficile.step (partie : MorpionUltime) (joueur : Joueur)
    (acc : XInt × Option Coup × XInt) (mv : Coup) : XInt × Option Coup × XInt :=
  let sc := IADifficile.minimax joueur (IADifficile.profondeur_max - 1)
    (cloneApres partie mv) acc.2.2 XInt.pinf false
  let acc2 := if XInt.lt acc.1 sc then (sc, some mv, acc.2.2) else acc
  (acc2.1, acc2.2.1, XInt.max acc2.2.2 acc2.1)

/-- `IADifficile.get_move(partie)` (ai.py): alpha-beta search over the
root moves, first strictly better score wins, deterministic. -/
def IADifficile.get_move (joueur : Joueur) (partie : MorpionUltime) : Option Coup :=
  ((partie.obtenir_coups_valides).foldl (IADifficile.step partie joueur)
    (XInt.ninf, none, XInt.ninf)).2.1

/-- Apply a list of moves through `jouer_coup`, keeping each resulting
state (rejected moves leave the state alone, as in the source). -/
def MorpionUltime.applique (s : MorpionUltime) (coups : List Coup) : MorpionUltime :=
  coups.foldl (fun t mv => (t.jouer_coup mv.1 mv.2.1 mv.2.2.1 mv.2.2.2).2) s

/-- Apply a list of moves, `none` as soon as one is rejected: a `some`
result is a game position actually reachable by legal play. -/
def MorpionUltime.appliqueLegal (s : MorpionUltime) (coups : List Coup) :
    Option MorpionUltime :=
  coups.foldlM (fun t mv =>
    let r := t.jouer_coup mv.1 mv.2.1 mv.2.2.1 mv.2.2.2
    if r.1 then some r.2 else none) s

/-- Build a 3×3 grid from a list of rows (total helper for the concrete
positions below). -/
def grilleDe (l : List (List Cell)) : Fin 3 → Fin 3 → Cell :=
  fun i j => (l.getD i []).getD j Cell.E

/-- Build the 3×3 arrangement of sub-boards of a concrete position. -/
def plateauxDe (l : List (List PetitPlateau)) : Fin 3 → Fin 3 → PetitPlateau :=
  fun i j => (l.getD i []).getD j PetitPlateau.initial

/-- A completely played-out drawn sub-board with X in the centre. -/
def petitNulX : PetitPlateau :=
  { plateau := grilleDe
      [[Cell.CX, Cell.CX, Cell.CO],
       [Cell.CO, Cell.CX, Cell.CX],
       [Cell.CX, Cell.CO, Cell.CO]]
    vainqueur := some Vainq.draw
    jeu_termine := true }

/-- A sub-board won by X (top row), otherwise empty. -/
def petitGagneX : PetitPlateau :=
  { plateau := grilleDe [[Cell.CX, Cell.CX, Cell.CX], [], []]
    vainqueur := some (Vainq.vj Joueur.X)
    jeu_termine := true }

/-- A sub-board won by O (top row), otherwise empty. -/
def petitGagneO : PetitPlateau :=
  { plateau := grilleDe [[Cell.CO, Cell.CO, Cell.CO], [], []]
    vainqueur := some (Vainq.vj Joueur.O)
    jeu_termine := true }

/-- A 17-move legal game in which X captures the whole top row of
sub-boards; the last move lands in cell (1,2), pointing at the still
playable sub-board (1,2). -/
def coupsC2 : List Coup :=
  [(0,0,1,0), (1,0,0,0), (0,0,1,1), (1,1,0,0), (0,0,1,2),
   (1,2,0,1), (0,1,2,0), (2,0,0,1), (0,1,2,1), (2,1,0,1),
   (0,1,2,2), (2,2,0,2), (0,2,1,0), (1,0,0,2), (0,2,1,1),
   (1,1,0,2), (0,2,1,2)]

/-- The position after `coupsC2`: globally won by X, active constraint on
the unfinished sub-board (1,2). -/
def etatGagneX : MorpionUltime :=
  MorpionUltime.initial.applique coupsC2

/-- Position for the anticipated-draw analysis: meta-grid
  X O D / O X . / . X O
(D = drawn sub-board, . = untouched). No meta line is complete, two
sub-boards are unfinished, and every winning triple contains a drawn or
opposite-won sub-board, while the triple (0,2),(1,2),(2,2) holds no
X-won sub-board and the triple (0,2),(1,1),(2,0) holds no O-won one. -/
def etatC1 : MorpionUltime :=
  { plateaux := plateauxDe
      [[petitGagneX, petitGagneO, petitNulX],
       [petitGagneO, petitGagneX, PetitPlateau.initial],
       [PetitPlateau.initial, petitGagneX, petitGagneO]]
    joueur_courant := Joueur.X
    plateau_actif := none
    jeu_termine := false
    vainqueur := none }

/-- Position with a single, drawn sub-board at (0,0) and everything else
untouched: isolates the baseline-score contribution of a drawn
sub-board. -/
def etatC5 : MorpionUltime :=
  { plateaux := plateauxDe [[petitNulX], [], []]
    joueur_courant := Joueur.X
    plateau_actif := none
    jeu_termine := false
    vainqueur := none }

/-- A finished game position: all nine sub-boards drawn, no legal move
anywhere. -/
def etatToutNul : MorpionUltime :=
  { plateaux := fun _ _ => petitNulX
    joueur_courant := Joueur.X
    plateau_actif := none
    jeu_termine := true
    vainqueur := none }

/-- The claim's notion (C1, from the spec text) of a still-open winning
triple for `joueur`: some triple none of whose sub-boards is won by the
opposite symbol — Draw, InProgress and own wins all count as open. -/
def specTripleOuvrable (s : MorpionUltime) (joueur : Joueur) : Bool :=
  combinaisons.any (fun combo =>
    combo.all (fun rc =>
      decide ((s.getP rc.1 rc.2).vainqueur ≠ some (Vainq.vj joueur.adversaire))))

/-- The notion actually implemented (for the amended C1): some triple in
which every sub-board is either already won by `joueur` or still without
any recorded winner; a drawn sub-board blocks the triple for both. -/
def tripleEncoreGagnable (s : MorpionUltime) (joueur : Joueur) : Bool :=
  combinaisons.any (fun combo =>
    combo.all (fun rc =>
      decide ((s.getP rc.1 rc.2).vainqueur = some (Vainq.vj joueur) ∨
        (s.getP rc.1 rc.2).vainqueur = none)))

deriving instance DecidableEq for Except

/-- Sub-board states reachable from a fresh `PetitPlateau` by arbitrary
`jouer_coup` calls (accepted or rejected), with any symbols. -/
inductive PetitPlateau.Atteignable : PetitPlateau → Prop where
  | initial : PetitPlateau.Atteignable PetitPlateau.initial
  | coup (p : PetitPlateau) (l c : Nat) (j : Joueur) :
      PetitPlateau.Atteignable p → PetitPlateau.Atteignable (p.jouer_coup l c j).2

/-- Apply a whole sequence of `jouer_coup` calls to a sub-board. -/
def PetitPlateau.appliqueSeq (p : PetitPlateau) (ops : List (Nat × Nat × Joueur)) :
    PetitPlateau :=
  ops.foldl (fun q op => (q.jouer_coup op.1 op.2.1 op.2.2).2) p

/-- A reachable, finished sub-board: X plays the top row while O answers
in the middle row. -/
def petitTemoin : PetitPlateau :=
  (((((PetitPlateau.initial.jouer_coup 0 0 Joueur.X).2.jouer_coup 1 0
    Joueur.O).2.jouer_coup 0 1 Joueur.X).2.jouer_coup 1 1
    Joueur.O).2.jouer_coup 0 2 Joueur.X).2

/-- The score `sc` computed for a candidate move inside
`IAFacile.get_move`. -/
def scoreFacile (partie : MorpionUltime) (joueur : Joueur) (mv : Coup) : Int :=
  evaluer_ultime (cloneApres partie mv) joueur

/-- Loop invariant of the move loop of `IAFacile.get_move` after the
moves `pre` have been examined: either nothing was scored yet (`pre`
empty), or the accumulator holds the first move of `pre` realising its
maximal score. -/
def InvFacile (partie : MorpionUltime) (joueur : Joueur)
    (acc : XInt × Option Coup) (pre : List Coup) : Prop :=
  (acc = (XInt.ninf, none) ∧ pre = []) ∨
  (∃ m p1 p2, acc = (XInt.val (scoreFacile partie joueur m), some m) ∧
    pre = p1 ++ m :: p2 ∧
    (∀ y ∈ p1, scoreFacile partie joueur y < scoreFacile partie joueur m) ∧
    (∀ y ∈ pre, scoreFacile partie joueur y ≤ scoreFacile partie joueur m))

/-- Executable coherence of a game state — true of every state the
engine builds: the active constraint (if any) is in range and points at
an unfinished sub-board; every unfinished sub-board still has a playable
cell; and when every sub-board is finished the global flag is set. -/
def etatCoherentB (s : MorpionUltime) : Bool :=
  (match s.plateau_actif with
   | none => true
   | some ab => decide (ab.1 < 3) && decide (ab.2 < 3) && !(s.getP ab.1 ab.2).jeu_termine) &&
  (pairs3.all (fun ab => (s.getP ab.1 ab.2).jeu_termine ||
     pairs3.any (fun ij => (s.getP ab.1 ab.2).coup_valide ij.1 ij.2))) &&
  (!s.tousTermines || s.jeu_termine)

/-- Heap of allocated `PetitPlateau` objects; an address is an index.
Models Python object identity for the mutable sub-boards: reads and
writes go through addresses, so two boards sharing an address would see
each other's mutations — `dupliquer` must therefore allocate fresh
addresses to be a deep copy. -/
abbrev Tas := List PetitPlateau

/-- Dereference an address. -/
def Tas.lire (h : Tas) (a : Nat) : PetitPlateau := h.getD a PetitPlateau.initial

/-- Overwrite the object at an address (in-place mutation). -/
def Tas.ecrire (h : Tas) (a : Nat) (p : PetitPlateau) : Tas := h.set a p

/-- A `MorpionUltime` Python object: its nine sub-boards are references
into the heap; the scalar attributes live in the object. -/
structure ObjMorpion where
  adresses : Fin 3 → Fin 3 → Nat
  joueur_courant : Joueur
  plateau_actif : Option (Nat × Nat)
  jeu_termine : Bool
  vainqueur : Option Joueur

/-- The pure state an object denotes under a heap — its "fields". -/
def ObjMorpion.vue (o : ObjMorpion) (h : Tas) : MorpionUltime :=
  { plateaux := fun i j => h.lire (o.adresses i j)
    joueur_courant := o.joueur_courant
    plateau_actif := o.plateau_actif
    jeu_termine := o.jeu_termine
    vainqueur := o.vainqueur }

/-- `MorpionUltime.dupliquer()` on the heap: each of the nine sub-boards
is copied **by value** (`PetitPlateau.dupliquer`) into freshly allocated
cells — address `length + 3*i + j` holds the copy of sub-board (i,j) —
and the scalar attributes are copied into the new object.  No address is
shared with the source. -/
def ObjMorpion.dupliquer (o : ObjMorpion) (h : Tas) : Tas × ObjMorpion :=
  (h ++ [(h.lire (o.adresses 0 0)).dupliquer, (h.lire (o.adresses 0 1)).dupliquer,
         (h.lire (o.adresses 0 2)).dupliquer, (h.lire (o.adresses 1 0)).dupliquer,
         (h.lire (o.adresses 1 1)).dupliquer, (h.lire (o.adresses 1 2)).dupliquer,
         (h.lire (o.adresses 2 0)).dupliquer, (h.lire (o.adresses 2 1)).dupliquer,
         (h.lire (o.adresses 2 2)).dupliquer],
   { adresses := fun i j => h.length + 3 * i.val + j.val
     joueur_courant := o.joueur_courant
     plateau_actif := o.plateau_actif
     jeu_termine := o.jeu_termine
     vainqueur := o.vainqueur })

/-- `MorpionUltime.jouer_coup` on the heap: the placement mutates the
heap cell the object's alias `plateau = self.plateaux[sp_l][sp_c]`
points to; the scalar attributes of the object are then updated as in
the pure transition. -/
def ObjMorpion.jouer_coup (o : ObjMorpion) (h : Tas) (a b c d : Nat) :
    Bool × Tas × ObjMorpion :=
  let s := o.vue h
  if ¬ s.coup_valide a b c d || s.jeu_termine then (false, h, o)
  else
    let r := (s.getP a b).jouer_coup c d s.joueur_courant
    let h2 := if hab : a < 3 ∧ b < 3 then
        h.ecrire (o.adresses ⟨a, hab.1⟩ ⟨b, hab.2⟩) r.2
      else h
    if ¬ r.1 then (false, h2, o)
    else
      let s2 := (o.vue h2).mettre_a_jour_etat_global
      let o2 := { o with jeu_termine := s2.jeu_termine, vainqueur := s2.vainqueur }
      let o3 := { o2 with plateau_actif :=
        if (s2.getP c d).jeu_termine then none else some (c, d) }
      if ¬ o3.jeu_termine then
        (true, h2, { o3 with joueur_courant := o3.joueur_courant.adversaire })
      else (true, h2, o3)

/-- A sequence of heap-level moves on one object. -/
def ObjMorpion.appliqueSeq (o : ObjMorpion) (h : Tas) (coups : List Coup) :
    Tas × ObjMorpion :=
  coups.foldl (fun acc mv => (acc.2.jouer_coup acc.1 mv.1 mv.2.1 mv.2.2.1 mv.2.2.2).2) (h, o)

/-- A concrete nine-cell heap holding fresh sub-boards. -/
def tasTemoin : Tas := List.replicate 9 PetitPlateau.initial

/-- A concrete board object over `tasTemoin`: sub-board (i,j) lives at
address 3i+j. -/
def objTemoin : ObjMorpion :=
  { adresses := fun i j => 3 * i.val + j.val
    joueur_courant := Joueur.X
    plateau_actif := none
    jeu_termine := false
    vainqueur := none }

/-- A move accepted at every step relates the checked and the unchecked
replay: a `some` result of `appliqueLegal` is the `applique` fold. -/
theorem appliqueLegal_applique (s : MorpionUltime) (l : List Coup) (t : MorpionUltime)
    (h : s.appliqueLegal l = some t) : s.applique l = t := by
  induction l generalizing s with
  | nil => simpa [MorpionUltime.appliqueLegal, MorpionUltime.applique] using h
  | cons mv rest ih =>
    simp only [MorpionUltime.appliqueLegal, List.foldlM_cons] at h
    by_cases hc : (s.jouer_coup mv.1 mv.2.1 mv.2.2.1 mv.2.2.2).1 = true
    · simp only [hc, if_pos] at h
      simpa [MorpionUltime.applique, List.foldl_cons] using ih _ h
    · simp only [hc] at h
      simp at h

/-- The first component of `PetitPlateau.jouer_coup` is exactly the
legality test. -/
theorem PetitPlateau.jouer_coup_fst (p : PetitPlateau) (l c : Nat) (j : Joueur) :
    (p.jouer_coup l c j).1 = p.coup_valide l c := by
  unfold PetitPlateau.jouer_coup
  split <;> simp_all

/-- A rejected `PetitPlateau.jouer_coup` leaves the sub-board alone. -/
theorem PetitPlateau.jouer_coup_echec (p : PetitPlateau) (l c : Nat) (j : Joueur)
    (h : p.coup_valide l c = false) : p.jouer_coup l c j = (false, p) := by
  unfold PetitPlateau.jouer_coup
  simp [h]

/-- Unfolded reading of `MorpionUltime.coup_valide`. -/
theorem coup_valide_global_spec (s : MorpionUltime) (a b c d : Nat) :
    s.coup_valide a b c d = true ↔
      (a < 3 ∧ b < 3) ∧ (s.getP a b).jeu_termine = false ∧
        (s.plateau_actif = none ∨ s.plateau_actif = some (a, b)) ∧
        (s.getP a b).coup_valide c d = true := by
  unfold MorpionUltime.coup_valide
  split_ifs with h1 h2 <;> simp_all
  tauto

/-- Writing back the sub-board just read is a no-op. -/
theorem setP_getP_self (s : MorpionUltime) (a b : Nat) :
    s.setP a b (s.getP a b) = s := by
  unfold MorpionUltime.setP MorpionUltime.getP
  split_ifs with h
  · cases s
    simp only [MorpionUltime.mk.injEq, and_true, true_and]
    funext i j
    split_ifs with hij
    · obtain ⟨hi, hj⟩ := hij
      rw [hi, hj]
    · rfl
  · rfl

/-- C4: for every board and move, if `jouer_coup` (applyMove) returns
failure — out-of-range indices, unavailable sub-board or cell, violated
active-sub-board constraint, or an already finished game — the board is
left completely unchanged: no cell, sub-board outcome, active
constraint, current player or global outcome moves. -/
theorem jouer_coup_echec_sans_mutation (s : MorpionUltime) (a b c d : Nat)
    (h : (s.jouer_coup a b c d).1 = false) : (s.jouer_coup a b c d).2 = s := by
  by_cases hv : s.coup_valide a b c d = true
  · by_cases ht : s.jeu_termine = true
    · unfold MorpionUltime.jouer_coup
      simp [ht]
    · exfalso
      have hpv : (s.getP a b).coup_valide c d = true :=
        ((coup_valide_global_spec s a b c d).mp hv).2.2.2
      unfold MorpionUltime.jouer_coup at h
      simp [hv, ht, PetitPlateau.jouer_coup_fst, hpv] at h
      split at h <;> simp at h
  · have : s.jouer_coup a b c d = (false, s) := by
      unfold MorpionUltime.jouer_coup
      simp [hv]
    rw [this]

/-- Witness for C4: the out-of-range move (3,0,0,0) on the initial board
is rejected and mutates nothing. -/
theorem jouer_coup_echec_sans_mutation_temoin :
    (MorpionUltime.initial.jouer_coup 3 0 0 0).1 = false ∧
      (MorpionUltime.initial.jouer_coup 3 0 0 0).2 = MorpionUltime.initial :=
  ⟨by decide, jouer_coup_echec_sans_mutation MorpionUltime.initial 3 0 0 0 (by decide)⟩

/-- Writing a cell does not touch the `vainqueur` attribute. -/
theorem PetitPlateau.set_vainqueur (p : PetitPlateau) (l c : Nat) (v : Cell) :
    (p.set l c v).vainqueur = p.vainqueur := by
  unfold PetitPlateau.set
  split <;> rfl

/-- Writing a cell does not touch the `jeu_termine` attribute. -/
theorem PetitPlateau.set_jeu_termine (p : PetitPlateau) (l c : Nat) (v : Cell) :
    (p.set l c v).jeu_termine = p.jeu_termine := by
  unfold PetitPlateau.set
  split <;> rfl

/-- On every reachable sub-board, a recorded winner and the terminal flag
agree: `vainqueur` is set exactly when `jeu_termine` is. -/
theorem atteignable_vainqueur_termine (p : PetitPlateau) (h : p.Atteignable) :
    p.vainqueur = none ↔ p.jeu_termine = false := by
  induction h with
  | initial => simp [PetitPlateau.initial]
  | coup q l c j _ ih =>
    unfold PetitPlateau.jouer_coup
    split
    case isTrue hv =>
      unfold PetitPlateau.verifier_etat
      split_ifs with h1 h2
      · simp
      · simp
      · rw [PetitPlateau.set_vainqueur, PetitPlateau.set_jeu_termine]
        exact ih
    case isFalse hv => exact ih

/-- C7: a reachable sub-board whose outcome is recorded (Won(X), Won(O)
or Draw) rejects every further `place` call, and no cell — in fact no
field — changes under any subsequent sequence of `jouer_coup` calls. -/
theorem sous_plateau_terminal_fige (p : PetitPlateau) (hr : p.Atteignable)
    (hv : p.vainqueur ≠ none) :
    (∀ l c j, (p.jouer_coup l c j).1 = false ∧ (p.jouer_coup l c j).2 = p) ∧
      ∀ ops : List (Nat × Nat × Joueur), p.appliqueSeq ops = p := by
  have ht : p.jeu_termine = true := by
    cases hb : p.jeu_termine with
    | false => exact absurd ((atteignable_vainqueur_termine p hr).mpr hb) hv
    | true => rfl
  have hcv : ∀ l c, p.coup_valide l c = false := by
    intro l c
    simp [PetitPlateau.coup_valide, ht]
  have hstep : ∀ l c j, p.jouer_coup l c j = (false, p) := fun l c j =>
    PetitPlateau.jouer_coup_echec p l c j (hcv l c)
  refine ⟨fun l c j => by rw [hstep l c j]; exact ⟨rfl, rfl⟩, ?_⟩
  intro ops
  induction ops with
  | nil => rfl
  | cons op rest ih =>
    unfold PetitPlateau.appliqueSeq at ih ⊢
    rw [List.foldl_cons, hstep op.1 op.2.1 op.2.2]
    exact ih

/-- Witness for C7: the five-move game `petitTemoin` ends won by X; a
later placement attempt by O fails and changes nothing. -/
theorem sous_plateau_terminal_fige_temoin :
    petitTemoin.vainqueur ≠ none ∧ (petitTemoin.jouer_coup 2 2 Joueur.O).1 = false ∧
      (petitTemoin.jouer_coup 2 2 Joueur.O).2 = petitTemoin := by
  have hr : petitTemoin.Atteignable :=
    PetitPlateau.Atteignable.coup _ 0 2 Joueur.X
      (PetitPlateau.Atteignable.coup _ 1 1 Joueur.O
        (PetitPlateau.Atteignable.coup _ 0 1 Joueur.X
          (PetitPlateau.Atteignable.coup _ 1 0 Joueur.O
            (PetitPlateau.Atteignable.coup _ 0 0 Joueur.X
              PetitPlateau.Atteignable.initial))))
  refine ⟨by decide, ?_, ?_⟩
  · exact ((sous_plateau_terminal_fige petitTemoin hr (by decide)).1 2 2 Joueur.O).1
  · exact ((sous_plateau_terminal_fige petitTemoin hr (by decide)).1 2 2 Joueur.O).2

/-- Unfolded reading of `PetitPlateau.coup_valide`. -/
theorem PetitPlateau.coup_valide_spec (p : PetitPlateau) (l c : Nat) :
    p.coup_valide l c = true ↔
      l < 3 ∧ c < 3 ∧ p.get l c = Cell.E ∧ p.jeu_termine = false := by
  unfold PetitPlateau.coup_valide
  simp [Bool.and_eq_true, Bool.not_eq_true']
  tauto

/-- `pairs3` holds exactly the in-range coordinate pairs. -/
theorem mem_pairs3 (i j : Nat) : (i, j) ∈ pairs3 ↔ i < 3 ∧ j < 3 := by
  simp only [pairs3, idx3, List.mem_flatMap, List.mem_map, List.mem_cons,
    List.not_mem_nil, or_false]
  constructor
  · rintro ⟨a, ha, b, hb, h⟩
    obtain ⟨rfl, rfl⟩ := Prod.mk.injEq .. ▸ h
    rcases ha with rfl | rfl | rfl <;> rcases hb with rfl | rfl | rfl <;> omega
  · rintro ⟨h1, h2⟩
    refine ⟨i, ?_, j, ?_, rfl⟩ <;> omega

/-- Membership in `obtenir_coups_valides`: with an active constraint the
move targets that sub-board and its cell is playable there; without one
the move targets any in-range unfinished sub-board with a playable
cell. -/
theorem mem_obtenir_coups_valides (s : MorpionUltime) (mv : Coup) :
    mv ∈ s.obtenir_coups_valides ↔
      (match s.plateau_actif with
       | some sp => mv.1 = sp.1 ∧ mv.2.1 = sp.2 ∧
           (s.getP sp.1 sp.2).coup_valide mv.2.2.1 mv.2.2.2 = true
       | none => mv.1 < 3 ∧ mv.2.1 < 3 ∧ (s.getP mv.1 mv.2.1).jeu_termine = false ∧
           (s.getP mv.1 mv.2.1).coup_valide mv.2.2.1 mv.2.2.2 = true) := by
  obtain ⟨m1, m2, m3, m4⟩ := mv
  unfold MorpionUltime.obtenir_coups_valides
  cases hpa : s.plateau_actif with
  | some sp =>
    simp only [List.mem_map, List.mem_filter]
    constructor
    · rintro ⟨ij, ⟨hmem, hcv⟩, heq⟩
      obtain ⟨rfl, rfl, rfl, rfl⟩ := Prod.mk.injEq .. ▸ heq
      exact ⟨rfl, rfl, hcv⟩
    · rintro ⟨rfl, rfl, hcv⟩
      have hr := (PetitPlateau.coup_valide_spec _ m3 m4).mp hcv
      exact ⟨(m3, m4), ⟨(mem_pairs3 m3 m4).mpr ⟨hr.1, hr.2.1⟩, hcv⟩, rfl⟩
  | none =>
    simp only [List.mem_flatMap]
    constructor
    · rintro ⟨sp, hsp, hin⟩
      split at hin
      · simp at hin
      case isFalse hterm =>
        simp only [List.mem_map, List.mem_filter] at hin
        obtain ⟨ij, ⟨hmem, hcv⟩, heq⟩ := hin
        obtain ⟨rfl, rfl, rfl, rfl⟩ := Prod.mk.injEq .. ▸ heq
        have hr := (mem_pairs3 sp.1 sp.2).mp (by
          cases sp
          exact hsp)
        exact ⟨hr.1, hr.2, Bool.not_eq_true _ ▸ hterm, hcv⟩
    · rintro ⟨h1, h2, hterm, hcv⟩
      refine ⟨(m1, m2), (mem_pairs3 m1 m2).mpr ⟨h1, h2⟩, ?_⟩
      rw [if_neg (by simp [hterm])]
      have hr := (PetitPlateau.coup_valide_spec _ m3 m4).mp hcv
      exact List.mem_map.mpr ⟨(m3, m4), List.mem_filter.mpr
        ⟨(mem_pairs3 m3 m4).mpr ⟨hr.1, hr.2.1⟩, hcv⟩, rfl⟩

/-- After a successful move into cell (c,d), the active constraint is
sub-board (c,d) unless that sub-board is finished, in which case it is
`none`. -/
theorem jouer_coup_plateau_actif (s : MorpionUltime) (a b c d : Nat)
    (h : (s.jouer_coup a b c d).1 = true) :
    (s.jouer_coup a b c d).2.plateau_actif =
      (if ((s.jouer_coup a b c d).2.getP c d).jeu_termine then none else some (c, d)) := by
  have hguard : ¬ ((decide (¬ s.coup_valide a b c d = true) || s.jeu_termine) = true) := by
    intro hg
    unfold MorpionUltime.jouer_coup at h
    rw [if_pos hg] at h
    exact Bool.false_ne_true h
  have hv : s.coup_valide a b c d = true := by
    by_contra hcv
    exact hguard (by simp [hcv])
  have hok : ((s.getP a b).jouer_coup c d s.joueur_courant).1 = true := by
    rw [PetitPlateau.jouer_coup_fst]
    exact ((coup_valide_global_spec s a b c d).mp hv).2.2.2
  unfold MorpionUltime.jouer_coup
  rw [if_neg hguard]
  simp only [hok, not_true_eq_false, if_false]
  split <;> simp [MorpionUltime.getP]

/-- With an active constraint, every enumerated move targets it. -/
theorem coups_valides_contrainte (t : MorpionUltime) (x y : Nat)
    (h : t.plateau_actif = some (x, y)) :
    ∀ mv ∈ t.obtenir_coups_valides, mv.1 = x ∧ mv.2.1 = y := by
  intro mv hm
  have hc := (mem_obtenir_coups_valides t mv).mp hm
  rw [h] at hc
  exact ⟨hc.1, hc.2.1⟩

/-- Without a constraint, every enumerated move targets an in-range,
unfinished sub-board. -/
theorem coups_valides_libres (t : MorpionUltime) (h : t.plateau_actif = none) :
    ∀ mv ∈ t.obtenir_coups_valides,
      mv.1 < 3 ∧ mv.2.1 < 3 ∧ (t.getP mv.1 mv.2.1).jeu_termine = false := by
  intro mv hm
  have hc := (mem_obtenir_coups_valides t mv).mp hm
  rw [h] at hc
  exact ⟨hc.1, hc.2.1, hc.2.2.1⟩

/-- Without a constraint, every playable cell of every in-range
unfinished sub-board is enumerated. -/
theorem coups_valides_libres_complet (t : MorpionUltime) (h : t.plateau_actif = none)
    (x y i j : Nat) (hx : x < 3) (hy : y < 3)
    (hcv : (t.getP x y).coup_valide i j = true) :
    (x, y, i, j) ∈ t.obtenir_coups_valides := by
  rw [mem_obtenir_coups_valides, h]
  have hterm : (t.getP x y).jeu_termine = false :=
    ((PetitPlateau.coup_valide_spec _ i j).mp hcv).2.2.2
  exact ⟨hx, hy, hterm, hcv⟩

/-- C6: after every successful `jouer_coup` landing in cell (c,d) the
active constraint is sub-board (c,d) when that sub-board is unfinished
and `none` (Any) when it is finished; and `obtenir_coups_valides`
enumerates only the constrained sub-board in the constrained case and
exactly the playable cells of the unfinished sub-boards in the Any
case. -/
theorem contrainte_active_et_enumeration (s : MorpionUltime) (a b c d : Nat)
    (h : (s.jouer_coup a b c d).1 = true) :
    ((s.jouer_coup a b c d).2.plateau_actif =
      (if ((s.jouer_coup a b c d).2.getP c d).jeu_termine then none else some (c, d))) ∧
    (∀ x y, (s.jouer_coup a b c d).2.plateau_actif = some (x, y) →
      ∀ mv ∈ (s.jouer_coup a b c d).2.obtenir_coups_valides, mv.1 = x ∧ mv.2.1 = y) ∧
    ((s.jouer_coup a b c d).2.plateau_actif = none →
      (∀ mv ∈ (s.jouer_coup a b c d).2.obtenir_coups_valides,
        mv.1 < 3 ∧ mv.2.1 < 3 ∧
          ((s.jouer_coup a b c d).2.getP mv.1 mv.2.1).jeu_termine = false) ∧
      (∀ x y i j, x < 3 → y < 3 →
        ((s.jouer_coup a b c d).2.getP x y).coup_valide i j = true →
        (x, y, i, j) ∈ (s.jouer_coup a b c d).2.obtenir_coups_valides)) :=
  ⟨jouer_coup_plateau_actif s a b c d h,
   fun x y hxy => coups_valides_contrainte _ x y hxy,
   fun hn => ⟨coups_valides_libres _ hn,
     fun x y i j hx hy hcv => coups_valides_libres_complet _ hn x y i j hx hy hcv⟩⟩

/-- Witness for C6: the first move of a game, X into sub-board (0,0)
cell (1,1): it succeeds and the constraint becomes sub-board (1,1). -/
theorem contrainte_active_et_enumeration_temoin :
    (MorpionUltime.initial.jouer_coup 0 0 1 1).1 = true ∧
      (MorpionUltime.initial.jouer_coup 0 0 1 1).2.plateau_actif =
        (if ((MorpionUltime.initial.jouer_coup 0 0 1 1).2.getP 1 1).jeu_termine then none
          else some (1, 1)) :=
  ⟨by decide, (contrainte_active_et_enumeration MorpionUltime.initial 0 0 1 1 (by decide)).1⟩

/-- C2 (code defect): the 17-move legal game `coupsC2` ends with a global
win for X, yet `obtenir_coups_valides` — which never consults the global
`jeu_termine` flag — still returns moves (the playable cells of the
constrained sub-board (1,2)), where the specification requires the empty
sequence on a terminal board. -/
theorem coups_enumeres_sur_partie_terminee :
    MorpionUltime.initial.appliqueLegal coupsC2 = some etatGagneX ∧
      etatGagneX.jeu_termine = true ∧ etatGagneX.vainqueur = some Joueur.X ∧
      etatGagneX.obtenir_coups_valides ≠ [] := by
  refine ⟨?_, by decide, by decide, by decide⟩
  have h1 : (MorpionUltime.initial.appliqueLegal coupsC2).isSome = true := by decide
  obtain ⟨t, ht⟩ := Option.isSome_iff_exists.mp h1
  have h2 := appliqueLegal_applique _ _ _ ht
  rw [ht]
  exact congrArg some h2.symm

/-- Counterexample for C10: on the finished board `etatGagneX` the greedy
strategy still returns a move, that move is in `obtenir_coups_valides`,
and `jouer_coup` rejects it — a non-None selection is not always
accepted. -/
theorem selection_refusee_sur_partie_finie :
    IAFacile.get_move Joueur.X etatGagneX = some (1, 2, 0, 0) ∧
      (1, 2, 0, 0) ∈ etatGagneX.obtenir_coups_valides ∧
      (etatGagneX.jouer_coup 1 2 0 0).1 = false :=
  ⟨by decide, by decide, by decide⟩

/-- Counterexample for C5: in the position `etatC5`, whose only non-empty
sub-board is the drawn `petitNulX`, the baseline evaluation is 20, not 0:
the drawn sub-board falls into the internal-evaluation branch and
contributes its centre bonus. -/
theorem sous_plateau_nul_contribue :
    petitNulX.vainqueur = some Vainq.draw ∧ contribSub petitNulX Joueur.X = 20 ∧
      evaluer_ultime etatC5 Joueur.X = 20 ∧ evaluer_ultime etatC5 Joueur.O = -20 :=
  ⟨by decide, by decide, by decide, by decide⟩

/-- A full line with no three-in-a-row mixes both symbols and scores 0. -/
theorem evaluer_ligne_pleine_mixte (a b c : Cell) (j : Joueur)
    (ha : a ≠ Cell.E) (hb : b ≠ Cell.E) (hc : c ≠ Cell.E)
    (hmix : ¬ (a = b ∧ b = c)) : evaluer_ligne [a, b, c] j = 0 := by
  revert ha hb hc hmix
  cases a <;> cases b <;> cases c <;> cases j <;> decide

/-- Cells of a full sub-board are never empty. -/
theorem PetitPlateau.est_nul_get (p : PetitPlateau) (h : p.est_nul = true) (r c : Nat)
    (hr : r < 3) (hc : c < 3) : p.get r c ≠ Cell.E := by
  have := List.all_eq_true.mp h (r, c) ((mem_pairs3 r c).mpr ⟨hr, hc⟩)
  simpa using this

/-- A complete row for `t` makes `gagne t` fire. -/
theorem PetitPlateau.gagne_of_rowAll (p : PetitPlateau) (t : Joueur) (r : Nat)
    (hr : r < 3) (h : p.rowAll r t = true) : p.gagne t = true := by
  unfold PetitPlateau.gagne
  interval_cases r <;> simp [idx3] <;> tauto

/-- A complete column for `t` makes `gagne t` fire. -/
theorem PetitPlateau.gagne_of_colAll (p : PetitPlateau) (t : Joueur) (c : Nat)
    (hc : c < 3) (h : p.colAll c t = true) : p.gagne t = true := by
  unfold PetitPlateau.gagne
  interval_cases c <;> simp [idx3] <;> tauto

/-- Three equal non-empty cells are a player's three cells. -/
theorem cellule_pleine_joueur (v : Cell) (hv : v ≠ Cell.E) :
    ∃ t : Joueur, v = t.toCell := by
  cases v with
  | E => exact absurd rfl hv
  | CX => exact ⟨Joueur.X, rfl⟩
  | CO => exact ⟨Joueur.O, rfl⟩

/-- Rows of a full sub-board with no three-in-a-row score zero. -/
theorem ligne_row_nulle (p : PetitPlateau) (j : Joueur) (r : Nat) (hr : r < 3)
    (hfull : p.est_nul = true) (hnw : ∀ k : Joueur, p.gagne k = false) :
    evaluer_ligne (p.row r) j = 0 := by
  have h0 := p.est_nul_get hfull r 0 hr (by omega)
  have h1 := p.est_nul_get hfull r 1 hr (by omega)
  have h2 := p.est_nul_get hfull r 2 hr (by omega)
  unfold PetitPlateau.row
  apply evaluer_ligne_pleine_mixte _ _ _ _ h0 h1 h2
  rintro ⟨hab, hbc⟩
  obtain ⟨t, ht⟩ := cellule_pleine_joueur _ h0
  have hall : p.rowAll r t = true := by
    simp only [PetitPlateau.rowAll, idx3, List.all_cons, List.all_nil, Bool.and_true,
      Bool.and_eq_true, decide_eq_true_eq]
    exact ⟨ht, hab ▸ ht, (hab.trans hbc) ▸ ht⟩
  exact absurd (p.gagne_of_rowAll t r hr hall) (by simp [hnw t])

/-- Columns of a full sub-board with no three-in-a-row score zero. -/
theorem ligne_col_nulle (p : PetitPlateau) (j : Joueur) (c : Nat) (hc : c < 3)
    (hfull : p.est_nul = true) (hnw : ∀ k : Joueur, p.gagne k = false) :
    evaluer_ligne (p.col c) j = 0 := by
  have h0 := p.est_nul_get hfull 0 c (by omega) hc
  have h1 := p.est_nul_get hfull 1 c (by omega) hc
  have h2 := p.est_nul_get hfull 2 c (by omega) hc
  unfold PetitPlateau.col
  apply evaluer_ligne_pleine_mixte _ _ _ _ h0 h1 h2
  rintro ⟨hab, hbc⟩
  obtain ⟨t, ht⟩ := cellule_pleine_joueur _ h0
  have hall : p.colAll c t = true := by
    simp only [PetitPlateau.colAll, idx3, List.all_cons, List.all_nil, Bool.and_true,
      Bool.and_eq_true, decide_eq_true_eq]
    exact ⟨ht, hab ▸ ht, (hab.trans hbc) ▸ ht⟩
  exact absurd (p.gagne_of_colAll t c hc hall) (by simp [hnw t])

/-- The main diagonal of a full sub-board with no three-in-a-row scores
zero. -/
theorem ligne_diag1_nulle (p : PetitPlateau) (j : Joueur)
    (hfull : p.est_nul = true) (hnw : ∀ k : Joueur, p.gagne k = false) :
    evaluer_ligne p.diag1 j = 0 := by
  have h0 := p.est_nul_get hfull 0 0 (by omega) (by omega)
  have h1 := p.est_nul_get hfull 1 1 (by omega) (by omega)
  have h2 := p.est_nul_get hfull 2 2 (by omega) (by omega)
  unfold PetitPlateau.diag1
  apply evaluer_ligne_pleine_mixte _ _ _ _ h0 h1 h2
  rintro ⟨hab, hbc⟩
  obtain ⟨t, ht⟩ := cellule_pleine_joueur _ h0
  have : p.gagne t = true := by
    unfold PetitPlateau.gagne
    simp only [Bool.or_eq_true, Bool.and_eq_true, decide_eq_true_eq]
    exact Or.inl (Or.inr ⟨⟨ht, hab ▸ ht⟩, (hab.trans hbc) ▸ ht⟩)
  exact absurd this (by simp [hnw t])

/-- The anti-diagonal of a full sub-board with no three-in-a-row scores
zero. -/
theorem ligne_diag2_nulle (p : PetitPlateau) (j : Joueur)
    (hfull : p.est_nul = true) (hnw : ∀ k : Joueur, p.gagne k = false) :
    evaluer_ligne p.diag2 j = 0 := by
  have h0 := p.est_nul_get hfull 0 2 (by omega) (by omega)
  have h1 := p.est_nul_get hfull 1 1 (by omega) (by omega)
  have h2 := p.est_nul_get hfull 2 0 (by omega) (by omega)
  unfold PetitPlateau.diag2
  apply evaluer_ligne_pleine_mixte _ _ _ _ h0 h1 h2
  rintro ⟨hab, hbc⟩
  obtain ⟨t, ht⟩ := cellule_pleine_joueur _ h0
  have : p.gagne t = true := by
    unfold PetitPlateau.gagne
    simp only [Bool.or_eq_true, Bool.and_eq_true, decide_eq_true_eq]
    exact Or.inr ⟨⟨ht, hab ▸ ht⟩, (hab.trans hbc) ▸ ht⟩
  exact absurd this (by simp [hnw t])

/-- C5 amended: a sub-board recorded as drawn (full, no three-in-a-row)
is excluded from the ±10000 cases and all its line scores vanish, but it
still contributes its centre-cell bonus: exactly +20 when the centre
belongs to the perspective player and −20 otherwise; in the meta-grid
term it maps to Empty as the claim states. -/
theorem contribution_sous_plateau_nul (p : PetitPlateau) (j : Joueur)
    (hv : p.vainqueur = some Vainq.draw) (hfull : p.est_nul = true)
    (hnw : ∀ k : Joueur, p.gagne k = false) :
    contribSub p j = (if p.get 1 1 = j.toCell then 20 else -20) ∧
      pgCell p.vainqueur = Cell.E := by
  constructor
  · unfold contribSub
    rw [hv]
    have hne1 : (some Vainq.draw : Option Vainq) ≠ some (Vainq.vj j) := by simp
    have hne2 : (some Vainq.draw : Option Vainq) ≠ some (Vainq.vj j.adversaire) := by simp
    rw [if_neg hne1, if_neg hne2]
    unfold evaluer_sous_plateau
    simp only [idx3, List.map_cons, List.map_nil, List.sum_cons, List.sum_nil]
    rw [ligne_row_nulle p j 0 (by omega) hfull hnw, ligne_row_nulle p j 1 (by omega) hfull hnw,
      ligne_row_nulle p j 2 (by omega) hfull hnw, ligne_col_nulle p j 0 (by omega) hfull hnw,
      ligne_col_nulle p j 1 (by omega) hfull hnw, ligne_col_nulle p j 2 (by omega) hfull hnw,
      ligne_diag1_nulle p j hfull hnw, ligne_diag2_nulle p j hfull hnw]
    have hC := p.est_nul_get hfull 1 1 (by omega) (by omega)
    cases hcell : p.get 1 1 <;> cases j <;>
      simp_all [Joueur.toCell, Joueur.adversaire]
  · rw [hv]
    rfl

/-- Witness for the amended C5 on the concrete drawn sub-board
`petitNulX` (centre X): its contribution for perspective X is its centre
bonus. -/
theorem contribution_sous_plateau_nul_temoin :
    petitNulX.vainqueur = some Vainq.draw ∧ petitNulX.est_nul = true ∧
      contribSub petitNulX Joueur.X =
        (if petitNulX.get 1 1 = Joueur.X.toCell then 20 else -20) :=
  ⟨by decide, by decide,
    (contribution_sous_plateau_nul petitNulX Joueur.X (by decide) (by decide)
      (fun k => by cases k <;> decide)).1⟩

/-- Counterexample for C1: in `etatC1` no meta line is complete and two
sub-boards are still in progress, yet `mettre_a_jour_etat_global`
declares an anticipated draw — although under the claim's reading
("a triple is still open for S iff none of its sub-boards is won by the
opposite symbol, a drawn one counting as open") both X (triple
(0,2),(1,1),(2,0)) and O (triple (0,2),(1,2),(2,2)) still have an open
triple, so the claim forbids the draw here.  The drawn sub-board (0,2)
in fact blocks those triples. -/
theorem nulle_anticipee_contre_spec :
    specTripleOuvrable etatC1 Joueur.X = true ∧
      specTripleOuvrable etatC1 Joueur.O = true ∧
      etatC1.chercheVainqueurGlobal = none ∧
      etatC1.tousTermines = false ∧
      etatC1.mettre_a_jour_etat_global.jeu_termine = true ∧
      etatC1.mettre_a_jour_etat_global.vainqueur = none :=
  ⟨by decide, by decide, by decide, by decide, by decide, by decide⟩

/-- A meta-cell is "still usable by `joueur`" exactly when the sub-board
is won by `joueur` or has no recorded winner — a draw is usable by
neither. -/
theorem cellule_ouverte (w : Option Vainq) (joueur : Joueur) :
    (GCell.ofVainqueur w = GCell.gJ joueur ∨ GCell.ofVainqueur w = GCell.gE) ↔
      (w = some (Vainq.vj joueur) ∨ w = none) := by
  cases w with
  | none => simp [GCell.ofVainqueur]
  | some v => cases v <;> simp [GCell.ofVainqueur]

/-- C1 amended: in the anticipated-draw computation a symbol S can still
win one of the 8 triples iff every sub-board of that triple is either
already won by S or has no recorded winner — a drawn sub-board blocks
the triple for both symbols — and, when no global line is complete and
some sub-board is unfinished, the update declares the anticipated draw
(terminal, no winner) exactly when neither symbol has such a triple. -/
theorem peut_encore_gagner_caracterisation :
    (∀ (s : MorpionUltime) (joueur : Joueur), s.peut_encore_gagner joueur = true ↔
      ∃ combo ∈ combinaisons, ∀ rc ∈ combo,
        (s.getP rc.1 rc.2).vainqueur = some (Vainq.vj joueur) ∨
          (s.getP rc.1 rc.2).vainqueur = none) ∧
    (∀ s : MorpionUltime, s.chercheVainqueurGlobal = none → s.tousTermines = false →
      s.mettre_a_jour_etat_global =
        (if s.peut_encore_gagner Joueur.X = false ∧ s.peut_encore_gagner Joueur.O = false
          then { s with jeu_termine := true, vainqueur := none } else s)) := by
  constructor
  · intro s joueur
    unfold MorpionUltime.peut_encore_gagner
    rw [List.any_eq_true]
    constructor
    · rintro ⟨combo, hcombo, hall⟩
      refine ⟨combo, hcombo, fun rc hrc => ?_⟩
      have hcell := List.all_eq_true.mp hall rc hrc
      rw [decide_eq_true_eq] at hcell
      unfold MorpionUltime.globalP PetitPlateau.obtenir_vainqueur at hcell
      exact (cellule_ouverte _ _).mp hcell
    · rintro ⟨combo, hcombo, hall⟩
      refine ⟨combo, hcombo, List.all_eq_true.mpr fun rc hrc => ?_⟩
      rw [decide_eq_true_eq]
      unfold MorpionUltime.globalP PetitPlateau.obtenir_vainqueur
      exact (cellule_ouverte _ _).mpr (hall rc hrc)
  · intro s hch ht
    unfold MorpionUltime.mettre_a_jour_etat_global
    rw [hch, ht]
    simp only [Bool.false_eq_true, if_false, Bool.not_eq_true]

/-- Witness for the amended C1, applied at the concrete position
`etatC1`: the hypotheses hold there and the update takes the
anticipated-draw branch. -/
theorem peut_encore_gagner_caracterisation_temoin :
    etatC1.chercheVainqueurGlobal = none ∧ etatC1.tousTermines = false ∧
      etatC1.mettre_a_jour_etat_global =
        (if etatC1.peut_encore_gagner Joueur.X = false ∧
            etatC1.peut_encore_gagner Joueur.O = false
          then { etatC1 with jeu_termine := true, vainqueur := none } else etatC1) :=
  ⟨by decide, by decide, peut_encore_gagner_caracterisation.2 etatC1 (by decide) (by decide)⟩

/-- Evaluation of one iteration of the loop of `IAFacile.get_move` once
a first score is installed. -/
theorem IAFacile.step_eq (partie : MorpionUltime) (joueur : Joueur) (v : Int)
    (mo : Option Coup) (x : Coup) :
    IAFacile.step partie joueur (XInt.val v, mo) x =
      (if v < scoreFacile partie joueur x
        then (XInt.val (scoreFacile partie joueur x), some x) else (XInt.val v, mo)) := by
  unfold IAFacile.step
  have hb : XInt.lt (XInt.val v) (XInt.val (evaluer_ultime (cloneApres partie x) joueur)) =
      decide (v < evaluer_ultime (cloneApres partie x) joueur) := by
    by_cases h : v < evaluer_ultime (cloneApres partie x) joueur
    · simp [XInt.lt, XInt.le, h, not_le.mpr h]
    · simp [XInt.lt, XInt.le, h, not_lt.mp h]
  simp only [hb, scoreFacile, decide_eq_true_eq]

/-- One loop iteration preserves `InvFacile`. -/
theorem InvFacile_step (partie : MorpionUltime) (joueur : Joueur)
    (acc : XInt × Option Coup) (pre : List Coup) (x : Coup)
    (h : InvFacile partie joueur acc pre) :
    InvFacile partie joueur (IAFacile.step partie joueur acc x) (pre ++ [x]) := by
  rcases h with ⟨ha, hp⟩ | ⟨m, p1, p2, ha, hp, hstrict, hle⟩
  · subst hp
    rw [ha]
    unfold IAFacile.step
    rw [if_pos (by simp [XInt.lt, XInt.le])]
    exact Or.inr ⟨x, [], [], rfl, by simp, by simp, by simp⟩
  · rw [ha, IAFacile.step_eq]
    by_cases hlt : scoreFacile partie joueur m < scoreFacile partie joueur x
    · rw [if_pos hlt]
      refine Or.inr ⟨x, pre, [], rfl, by simp, ?_, ?_⟩
      · exact fun y hy => lt_of_le_of_lt (hle y hy) hlt
      · intro y hy
        rcases List.mem_append.mp hy with hy | hy
        · exact le_of_lt (lt_of_le_of_lt (hle y hy) hlt)
        · simp at hy
          subst hy
          exact le_refl _
    · rw [if_neg hlt]
      refine Or.inr ⟨m, p1, p2 ++ [x], rfl, by rw [hp]; simp, hstrict, ?_⟩
      intro y hy
      rcases List.mem_append.mp hy with hy | hy
      · exact hle y hy
      · simp at hy
        subst hy
        exact le_of_not_lt hlt

/-- The invariant is carried through the whole fold. -/
theorem InvFacile_foldl (partie : MorpionUltime) (joueur : Joueur) :
    ∀ (l pre : List Coup) (acc : XInt × Option Coup),
      InvFacile partie joueur acc pre →
      InvFacile partie joueur (l.foldl (IAFacile.step partie joueur) acc) (pre ++ l) := by
  intro l
  induction l with
  | nil =>
    intro pre acc h
    simpa using h
  | cons x xs ih =>
    intro pre acc h
    rw [List.foldl_cons]
    have := ih (pre ++ [x]) _ (InvFacile_step partie joueur acc pre x h)
    simpa [List.append_assoc] using this

/-- C9: on a board with at least one enumerated move, the greedy
strategy deterministically returns the earliest move whose
cloned-and-applied board realises the maximal baseline score: all
earlier moves score strictly less and no move scores more. -/
theorem ia_facile_premier_maximum (partie : MorpionUltime) (joueur : Joueur)
    (h : partie.obtenir_coups_valides ≠ []) :
    ∃ m p1 p2, IAFacile.get_move joueur partie = some m ∧
      partie.obtenir_coups_valides = p1 ++ m :: p2 ∧
      (∀ y ∈ p1, scoreFacile partie joueur y < scoreFacile partie joueur m) ∧
      (∀ y ∈ partie.obtenir_coups_valides,
        scoreFacile partie joueur y ≤ scoreFacile partie joueur m) := by
  have hInv := InvFacile_foldl partie joueur partie.obtenir_coups_valides []
    (XInt.ninf, none) (Or.inl ⟨rfl, rfl⟩)
  rw [List.nil_append] at hInv
  rcases hInv with ⟨_, hp⟩ | ⟨m, p1, p2, ha, hp, hstrict, hle⟩
  · exact absurd hp h
  · refine ⟨m, p1, p2, ?_, hp, hstrict, hle⟩
    unfold IAFacile.get_move
    rw [ha]

/-- Witness for C9 at the position `etatGagneX`, whose move list is
non-empty: the greedy strategy returns a move. -/
theorem ia_facile_premier_maximum_temoin :
    etatGagneX.obtenir_coups_valides ≠ [] ∧
      (IAFacile.get_move Joueur.X etatGagneX).isSome = true := by
  refine ⟨by decide, ?_⟩
  obtain ⟨m, p1, p2, hm, -, -, -⟩ := ia_facile_premier_maximum etatGagneX Joueur.X (by decide)
  rw [hm]
  rfl

/-- Reading back the sub-board just written. -/
theorem getP_setP_meme (s : MorpionUltime) (a b : Nat) (p : PetitPlateau)
    (ha : a < 3) (hb : b < 3) : (s.setP a b p).getP a b = p := by
  unfold MorpionUltime.setP MorpionUltime.getP
  rw [dif_pos ⟨ha, hb⟩, dif_pos ⟨ha, hb⟩]
  simp

/-- Reading any other sub-board after a write. -/
theorem getP_setP_autre (s : MorpionUltime) (a b : Nat) (p : PetitPlateau)
    (a' b' : Nat) (hne : ¬ (a' = a ∧ b' = b)) :
    (s.setP a b p).getP a' b' = s.getP a' b' := by
  unfold MorpionUltime.setP
  split_ifs with h1
  · unfold MorpionUltime.getP
    split_ifs with h2
    · simp only
      rw [if_neg]
      rintro ⟨hi, hj⟩
      exact hne ⟨by simpa using congrArg Fin.val hi, by simpa using congrArg Fin.val hj⟩
    · rfl
  · rfl

/-- `setP` only touches the grid of sub-boards. -/
theorem setP_champs (s : MorpionUltime) (a b : Nat) (p : PetitPlateau) :
    (s.setP a b p).joueur_courant = s.joueur_courant ∧
      (s.setP a b p).plateau_actif = s.plateau_actif ∧
      (s.setP a b p).jeu_termine = s.jeu_termine ∧
      (s.setP a b p).vainqueur = s.vainqueur := by
  unfold MorpionUltime.setP
  split <;> exact ⟨rfl, rfl, rfl, rfl⟩

/-- `mettre_a_jour_etat_global` never touches the sub-boards. -/
theorem mettre_a_jour_plateaux (s : MorpionUltime) :
    s.mettre_a_jour_etat_global.plateaux = s.plateaux := by
  unfold MorpionUltime.mettre_a_jour_etat_global
  cases s.chercheVainqueurGlobal with
  | some j => rfl
  | none => split_ifs <;> rfl

/-- Hence reads of sub-boards are unchanged by the global update. -/
theorem getP_mettre_a_jour (s : MorpionUltime) (a b : Nat) :
    s.mettre_a_jour_etat_global.getP a b = s.getP a b := by
  unfold MorpionUltime.getP
  rw [mettre_a_jour_plateaux]

/-- `mettre_a_jour_etat_global` keeps the active constraint and the
current player. -/
theorem mettre_a_jour_champs (s : MorpionUltime) :
    s.mettre_a_jour_etat_global.plateau_actif = s.plateau_actif ∧
      s.mettre_a_jour_etat_global.joueur_courant = s.joueur_courant := by
  unfold MorpionUltime.mettre_a_jour_etat_global
  cases s.chercheVainqueurGlobal with
  | some j => exact ⟨rfl, rfl⟩
  | none => split_ifs <;> exact ⟨rfl, rfl⟩

/-- When every sub-board is finished, the global update marks the game
over (global win, full draw or anticipated draw alike). -/
theorem mettre_a_jour_termine_de_tous (s : MorpionUltime) (h : s.tousTermines = true) :
    s.mettre_a_jour_etat_global.jeu_termine = true := by
  unfold MorpionUltime.mettre_a_jour_etat_global
  cases s.chercheVainqueurGlobal with
  | some j => rfl
  | none => rw [if_pos h]

/-- A successful global move means the guard was passed: the move was
valid and the game not yet over. -/
theorem jouer_coup_reussite_valide (s : MorpionUltime) (a b c d : Nat)
    (h : (s.jouer_coup a b c d).1 = true) :
    s.coup_valide a b c d = true ∧ s.jeu_termine = false := by
  by_cases hg : (decide (¬ s.coup_valide a b c d = true) || s.jeu_termine) = true
  · exfalso
    unfold MorpionUltime.jouer_coup at h
    rw [if_pos hg] at h
    exact Bool.false_ne_true h
  · constructor
    · by_contra hcv
      exact hg (by simp [hcv])
    · cases hjt : s.jeu_termine
      · rfl
      · exact absurd (by simp [hjt]) hg

/-- Explicit form of the state after a successful `jouer_coup`. -/
theorem jouer_coup_reussite_eq (s : MorpionUltime) (a b c d : Nat)
    (hv : s.coup_valide a b c d = true) (ht : s.jeu_termine = false) :
    s.jouer_coup a b c d =
      (true,
        let s2 :=
          (s.setP a b ((s.getP a b).jouer_coup c d s.joueur_courant).2).mettre_a_jour_etat_global
        let s3 := { s2 with
          plateau_actif := if (s2.getP c d).jeu_termine then none else some (c, d) }
        if ¬ s3.jeu_termine then
          { s3 with joueur_courant := s3.joueur_courant.adversaire }
        else s3) := by
  have hok : ((s.getP a b).jouer_coup c d s.joueur_courant).1 = true := by
    rw [PetitPlateau.jouer_coup_fst]
    exact ((coup_valide_global_spec s a b c d).mp hv).2.2.2
  unfold MorpionUltime.jouer_coup
  rw [if_neg (by simp [hv, ht])]
  simp only [hok, not_true_eq_false, if_false]
  split <;> rfl

/-- On a coherent state whose game is not over, the move list is
non-empty. -/
theorem coherent_coups_non_vides (s : MorpionUltime) (h : etatCoherentB s = true)
    (ht : s.jeu_termine = false) : s.obtenir_coups_valides ≠ [] := by
  unfold etatCoherentB at h
  simp only [Bool.and_eq_true, List.all_eq_true, Bool.or_eq_true, List.any_eq_true,
    Bool.not_eq_true'] at h
  obtain ⟨⟨hactif, hjou⟩, htous⟩ := h
  intro hnil
  cases hpa : s.plateau_actif with
  | some ab =>
    rw [hpa] at hactif
    simp only [Bool.and_eq_true, decide_eq_true_eq, Bool.not_eq_true'] at hactif
    obtain ⟨⟨ha, hb⟩, hterm⟩ := hactif
    rcases hjou (ab.1, ab.2) ((mem_pairs3 ab.1 ab.2).mpr ⟨ha, hb⟩) with hbad | ⟨ij, hmem, hcv⟩
    · exact Bool.false_ne_true (hterm ▸ hbad)
    · have : (ab.1, ab.2, ij.1, ij.2) ∈ s.obtenir_coups_valides := by
        rw [mem_obtenir_coups_valides, hpa]
        exact ⟨rfl, rfl, hcv⟩
      rw [hnil] at this
      exact List.not_mem_nil _ this
  | none =>
    have htousT : s.tousTermines = true := by
      unfold MorpionUltime.tousTermines
      rw [List.all_eq_true]
      intro ab hab
      have hr := (mem_pairs3 ab.1 ab.2).mp (by cases ab; exact hab)
      rcases hjou ab hab with hterm | ⟨ij, hmem, hcv⟩
      · exact hterm
      · exfalso
        have : (ab.1, ab.2, ij.1, ij.2) ∈ s.obtenir_coups_valides := by
          rw [mem_obtenir_coups_valides, hpa]
          have hterm := ((PetitPlateau.coup_valide_spec _ ij.1 ij.2).mp hcv).2.2.2
          exact ⟨hr.1, hr.2, hterm, hcv⟩
        rw [hnil] at this
        exact List.not_mem_nil _ this
    rcases htous with htous | htous
    · exact Bool.false_ne_true (htous ▸ htousT)
    · exact Bool.false_ne_true (ht ▸ htous)

/-- Field-level description of the state after a successful move: the
sub-boards are those written by the placement, the terminal flag comes
from the global update, and the constraint follows the landing cell. -/
theorem jouer_coup_reussite_champs (s : MorpionUltime) (a b c d : Nat)
    (hv : s.coup_valide a b c d = true) (ht : s.jeu_termine = false) :
    (∀ x y, (s.jouer_coup a b c d).2.getP x y =
        (s.setP a b ((s.getP a b).jouer_coup c d s.joueur_courant).2).getP x y) ∧
      (s.jouer_coup a b c d).2.jeu_termine =
        (s.setP a b
          ((s.getP a b).jouer_coup c d s.joueur_courant).2).mettre_a_jour_etat_global.jeu_termine ∧
      (s.jouer_coup a b c d).2.plateau_actif =
        (if ((s.setP a b ((s.getP a b).jouer_coup c d s.joueur_courant).2).getP c d).jeu_termine
          then none else some (c, d)) ∧
      (s.jouer_coup a b c d).2.tousTermines =
        (s.setP a b ((s.getP a b).jouer_coup c d s.joueur_courant).2).tousTermines := by
  rw [jouer_coup_reussite_eq s a b c d hv ht]
  dsimp only
  refine ⟨?_, ?_, ?_, ?_⟩
  · intro x y
    split <;> simp [MorpionUltime.getP, mettre_a_jour_plateaux]
  · split <;> rfl
  · split <;> simp [getP_mettre_a_jour]
  · split <;> simp [MorpionUltime.tousTermines, MorpionUltime.getP, mettre_a_jour_plateaux]

/-- A sub-board left unfinished by `verifier_etat` still has a playable
cell. -/
theorem petit_non_termine_jouable (q : PetitPlateau) (j : Joueur)
    (h : (q.verifier_etat j).jeu_termine = false) :
    ∃ ij ∈ pairs3, (q.verifier_etat j).coup_valide ij.1 ij.2 = true := by
  unfold PetitPlateau.verifier_etat at h ⊢
  split_ifs at h ⊢ with h1 h2
  · have hE : ∃ ij ∈ pairs3, q.get ij.1 ij.2 = Cell.E := by
      by_contra hno
      push_neg at hno
      apply h2
      unfold PetitPlateau.est_nul
      rw [List.all_eq_true]
      intro ij hij
      simpa using hno ij hij
    obtain ⟨ij, hij, hEij⟩ := hE
    have hr := (mem_pairs3 ij.1 ij.2).mp (by cases ij; exact hij)
    exact ⟨ij, hij, (PetitPlateau.coup_valide_spec q ij.1 ij.2).mpr ⟨hr.1, hr.2, hEij, h⟩⟩

/-- `jouer_coup` preserves coherence — rejected moves change nothing and
successful ones re-establish every clause. -/
theorem coherent_jouer_coup (s : MorpionUltime) (a b c d : Nat)
    (h : etatCoherentB s = true) :
    etatCoherentB (s.jouer_coup a b c d).2 = true := by
  by_cases hs : (s.jouer_coup a b c d).1 = true
  case neg =>
    have hf : (s.jouer_coup a b c d).1 = false := by
      cases hb : (s.jouer_coup a b c d).1
      · rfl
      · exact absurd hb hs
    rw [jouer_coup_echec_sans_mutation s a b c d hf]
    exact h
  case pos =>
    obtain ⟨hv, ht⟩ := jouer_coup_reussite_valide s a b c d hs
    obtain ⟨hget, hjt, hpa, htt⟩ := jouer_coup_reussite_champs s a b c d hv ht
    have hcvp : (s.getP a b).coup_valide c d = true :=
      ((coup_valide_global_spec s a b c d).mp hv).2.2.2
    have hab : a < 3 ∧ b < 3 := ((coup_valide_global_spec s a b c d).mp hv).1
    have hcd : c < 3 ∧ d < 3 := by
      have hc := (PetitPlateau.coup_valide_spec _ c d).mp hcvp
      exact ⟨hc.1, hc.2.1⟩
    have hp' : ((s.getP a b).jouer_coup c d s.joueur_courant).2 =
        ((s.getP a b).set c d s.joueur_courant.toCell).verifier_etat s.joueur_courant := by
      unfold PetitPlateau.jouer_coup
      rw [if_pos hcvp]
    unfold etatCoherentB at h ⊢
    simp only [Bool.and_eq_true, List.all_eq_true, Bool.or_eq_true, List.any_eq_true,
      Bool.not_eq_true'] at h
    obtain ⟨⟨hactif, hjou⟩, htous⟩ := h
    rw [Bool.and_eq_true, Bool.and_eq_true]
    refine ⟨⟨?_, ?_⟩, ?_⟩
    · -- constraint clause of the new state
      rw [hpa]
      split_ifs with hterm
      · rfl
      · simp only [Bool.and_eq_true, decide_eq_true_eq, Bool.not_eq_true']
        refine ⟨⟨hcd.1, hcd.2⟩, ?_⟩
        rw [hget c d]
        cases hb : ((s.setP a b ((s.getP a b).jouer_coup c d s.joueur_courant).2).getP c
            d).jeu_termine
        · rfl
        · exact absurd hb hterm
    · -- playable clause of the new state
      rw [List.all_eq_true]
      intro ab habm
      have hr := (mem_pairs3 ab.1 ab.2).mp (by cases ab; exact habm)
      simp only [Bool.or_eq_true, List.any_eq_true]
      rw [hget ab.1 ab.2]
      by_cases hmeme : ab.1 = a ∧ ab.2 = b
      · rw [hmeme.1, hmeme.2, getP_setP_meme s a b _ hab.1 hab.2, hp']
        cases hqb : (((s.getP a b).set c d s.joueur_courant.toCell).verifier_etat
            s.joueur_courant).jeu_termine
        · right
          obtain ⟨ij, hij, hcvij⟩ := petit_non_termine_jouable _ _ hqb
          exact ⟨ij, hij, hcvij⟩
        · exact Or.inl rfl
      · rw [getP_setP_autre s a b _ ab.1 ab.2 hmeme]
        rcases hjou ab habm with hterm | ⟨ij, hij, hcvij⟩
        · exact Or.inl hterm
        · exact Or.inr ⟨ij, hij, hcvij⟩
    · -- terminal-flag clause of the new state
      rw [Bool.or_eq_true, Bool.not_eq_true', htt]
      cases hT : (s.setP a b ((s.getP a b).jouer_coup c d s.joueur_courant).2).tousTermines
      · exact Or.inl rfl
      · right
        rw [hjt]
        exact mettre_a_jour_termine_de_tous _ hT

/-- `max` of two finite scores is finite. -/
theorem XInt.max_val (a b : Int) :
    XInt.max (XInt.val a) (XInt.val b) = XInt.val (Max.max a b) := by
  unfold XInt.max XInt.le
  rcases le_total a b with h | h
  · rw [if_pos (by simpa using h), max_eq_right h]
  · by_cases heq : a ≤ b
    · rw [if_pos (by simpa using heq), max_eq_right heq]
    · rw [if_neg (by simpa using heq), max_eq_left (le_of_not_le heq)]

/-- `max` with `-inf` keeps a finite score. -/
theorem XInt.max_ninf_val (a : Int) :
    XInt.max XInt.ninf (XInt.val a) = XInt.val a := by
  unfold XInt.max XInt.le
  rfl

/-- `min` of two finite scores is finite. -/
theorem XInt.min_val (a b : Int) :
    XInt.min (XInt.val a) (XInt.val b) = XInt.val (Min.min a b) := by
  unfold XInt.min XInt.le
  rcases le_total a b with h | h
  · rw [if_pos (by simpa using h), min_eq_left h]
  · by_cases heq : a ≤ b
    · rw [if_pos (by simpa using heq), min_eq_left heq]
    · rw [if_neg (by simpa using heq), min_eq_right (le_of_not_le heq)]

/-- `min` with `+inf` keeps a finite score. -/
theorem XInt.min_pinf_val (a : Int) :
    XInt.min XInt.pinf (XInt.val a) = XInt.val a := by
  unfold XInt.min XInt.le
  rfl

/-- The alpha-beta maximizing loop started on a finite value returns a
finite value whenever every child evaluation is finite. -/
theorem abBoucleMax_val (next : MorpionUltime → XInt → XInt → XInt) (partie : MorpionUltime)
    (hnext : ∀ mv alpha beta, ∃ u : Int, next (cloneApres partie mv) alpha beta = XInt.val u) :
    ∀ (l : List Coup) (w : Int) (alpha beta : XInt),
      ∃ u : Int, abBoucleMax next partie l (XInt.val w) alpha beta = XInt.val u := by
  intro l
  induction l with
  | nil => exact fun w alpha beta => ⟨w, rfl⟩
  | cons mv rest ih =>
    intro w alpha beta
    obtain ⟨u, hu⟩ := hnext mv alpha beta
    unfold abBoucleMax
    rw [hu, XInt.max_val]
    dsimp only
    by_cases hc : XInt.le beta (XInt.max alpha (XInt.val (Max.max w u))) = true
    · exact ⟨Max.max w u, by rw [if_pos hc]⟩
    · obtain ⟨z, hz⟩ := ih (Max.max w u) (XInt.max alpha (XInt.val (Max.max w u))) beta
      exact ⟨z, by rw [if_neg hc]; exact hz⟩

/-- The alpha-beta maximizing loop on a non-empty move list returns a
finite value whenever every child evaluation is finite. -/
theorem abBoucleMax_val_depart (next : MorpionUltime → XInt → XInt → XInt)
    (partie : MorpionUltime)
    (hnext : ∀ mv alpha beta, ∃ u : Int, next (cloneApres partie mv) alpha beta = XInt.val u)
    (l : List Coup) (hl : l ≠ []) (alpha beta : XInt) :
    ∃ u : Int, abBoucleMax next partie l XInt.ninf alpha beta = XInt.val u := by
  cases l with
  | nil => exact absurd rfl hl
  | cons mv rest =>
    obtain ⟨u, hu⟩ := hnext mv alpha beta
    unfold abBoucleMax
    rw [hu, XInt.max_ninf_val]
    dsimp only
    by_cases hc : XInt.le beta (XInt.max alpha (XInt.val u)) = true
    · exact ⟨u, by rw [if_pos hc]⟩
    · obtain ⟨z, hz⟩ :=
        abBoucleMax_val next partie hnext rest u (XInt.max alpha (XInt.val u)) beta
      exact ⟨z, by rw [if_neg hc]; exact hz⟩

/-- The alpha-beta minimizing loop started on a finite value returns a
finite value whenever every child evaluation is finite. -/
theorem abBoucleMin_val (next : MorpionUltime → XInt → XInt → XInt) (partie : MorpionUltime)
    (hnext : ∀ mv alpha beta, ∃ u : Int, next (cloneApres partie mv) alpha beta = XInt.val u) :
    ∀ (l : List Coup) (w : Int) (alpha beta : XInt),
      ∃ u : Int, abBoucleMin next partie l (XInt.val w) alpha beta = XInt.val u := by
  intro l
  induction l with
  | nil => exact fun w alpha beta => ⟨w, rfl⟩
  | cons mv rest ih =>
    intro w alpha beta
    obtain ⟨u, hu⟩ := hnext mv alpha beta
    unfold abBoucleMin
    rw [hu, XInt.min_val]
    dsimp only
    by_cases hc : XInt.le (XInt.min beta (XInt.val (Min.min w u))) alpha = true
    · exact ⟨Min.min w u, by rw [if_pos hc]⟩
    · obtain ⟨z, hz⟩ := ih (Min.min w u) alpha (XInt.min beta (XInt.val (Min.min w u)))
      exact ⟨z, by rw [if_neg hc]; exact hz⟩

/-- The alpha-beta minimizing loop on a non-empty move list returns a
finite value whenever every child evaluation is finite. -/
theorem abBoucleMin_val_depart (next : MorpionUltime → XInt → XInt → XInt)
    (partie : MorpionUltime)
    (hnext : ∀ mv alpha beta, ∃ u : Int, next (cloneApres partie mv) alpha beta = XInt.val u)
    (l : List Coup) (hl : l ≠ []) (alpha beta : XInt) :
    ∃ u : Int, abBoucleMin next partie l XInt.pinf alpha beta = XInt.val u := by
  cases l with
  | nil => exact absurd rfl hl
  | cons mv rest =>
    obtain ⟨u, hu⟩ := hnext mv alpha beta
    unfold abBoucleMin
    rw [hu, XInt.min_pinf_val]
    dsimp only
    by_cases hc : XInt.le (XInt.min beta (XInt.val u)) alpha = true
    · exact ⟨u, by rw [if_pos hc]⟩
    · obtain ⟨z, hz⟩ :=
        abBoucleMin_val next partie hnext rest u alpha (XInt.min beta (XInt.val u))
      exact ⟨z, by rw [if_neg hc]; exact hz⟩

/-- On coherent states the pruned minimax never returns an infinity:
every leaf is a concrete evaluation and every loop runs over a non-empty
move list. -/
theorem minimax_difficile_fini (joueur : Joueur) :
    ∀ (fuel : Nat) (s : MorpionUltime), etatCoherentB s = true →
      ∀ (alpha beta : XInt) (est_max : Bool),
        ∃ u : Int, IADifficile.minimax joueur fuel s alpha beta est_max = XInt.val u := by
  intro fuel
  induction fuel with
  | zero => exact fun s _ alpha beta em => ⟨evaluer_difficile s joueur, rfl⟩
  | succ fuel ih =>
    intro s hs alpha beta em
    unfold IADifficile.minimax
    cases hterm : s.jeu_termine with
    | true =>
      rw [if_pos rfl]
      exact ⟨evaluer_difficile s joueur, rfl⟩
    | false =>
      rw [if_neg (by simp)]
      have hnext : ∀ (em2 : Bool) mv alpha beta, ∃ u : Int,
          IADifficile.minimax joueur fuel (cloneApres s mv) alpha beta em2 = XInt.val u :=
        fun em2 mv alpha beta =>
          ih (cloneApres s mv) (coherent_jouer_coup s mv.1 mv.2.1 mv.2.2.1 mv.2.2.2 hs)
            alpha beta em2
      have hne := coherent_coups_non_vides s hs hterm
      cases em with
      | true =>
        rw [if_pos rfl]
        exact abBoucleMax_val_depart _ s (hnext false) s.obtenir_coups_valides hne alpha beta
      | false =>
        rw [if_neg (by simp)]
        exact abBoucleMin_val_depart _ s (hnext true) s.obtenir_coups_valides hne alpha beta

/-- `-inf` is strictly below any finite score. -/
theorem XInt.lt_ninf_val (v : Int) : XInt.lt XInt.ninf (XInt.val v) = true := rfl

/-- The selected move after one root iteration of `IADifficile.get_move`. -/
theorem IADifficile.step_snd (partie : MorpionUltime) (joueur : Joueur)
    (acc : XInt × Option Coup × XInt) (x : Coup) :
    (IADifficile.step partie joueur acc x).2.1 =
      (if XInt.lt acc.1 (IADifficile.minimax joueur (IADifficile.profondeur_max - 1)
          (cloneApres partie x) acc.2.2 XInt.pinf false) = true
        then some x else acc.2.1) := by
  unfold IADifficile.step
  dsimp only
  split
  · rfl
  · rfl

/-- If the root fold of `IADifficile.get_move` ends without a move, it
started without one. -/
theorem ia_difficile_fold_none (partie : MorpionUltime) (joueur : Joueur) :
    ∀ (l : List Coup) (acc : XInt × Option Coup × XInt),
      (l.foldl (IADifficile.step partie joueur) acc).2.1 = none → acc.2.1 = none := by
  intro l
  induction l with
  | nil => exact fun acc h => h
  | cons x xs ih =>
    intro acc h
    rw [List.foldl_cons] at h
    have h2 := ih _ h
    rw [IADifficile.step_snd] at h2
    split at h2
    · exact absurd h2 (by simp)
    · exact h2

/-- A move selected by the root fold of `IADifficile.get_move` comes
from the accumulator or from the processed list. -/
theorem ia_difficile_fold_mem (partie : MorpionUltime) (joueur : Joueur) :
    ∀ (l : List Coup) (acc : XInt × Option Coup × XInt) (m : Coup),
      (l.foldl (IADifficile.step partie joueur) acc).2.1 = some m →
        acc.2.1 = some m ∨ m ∈ l := by
  intro l
  induction l with
  | nil => exact fun acc m h => Or.inl h
  | cons x xs ih =>
    intro acc m h
    rw [List.foldl_cons] at h
    rcases ih _ m h with h2 | h2
    · rw [IADifficile.step_snd] at h2
      split at h2
      · injection h2 with h3
        exact Or.inr (h3 ▸ List.mem_cons_self x xs)
      · exact Or.inl h2
    · exact Or.inr (List.mem_cons_of_mem x h2)

/-- A move handed out by `randomChoice` is an element of the list. -/
theorem randomChoice_mem (idx : Nat) (l : List α) (m : α)
    (h : randomChoice idx l = Except.ok m) : m ∈ l := by
  cases l with
  | nil => simp [randomChoice] at h
  | cons x xs =>
    unfold randomChoice at h
    injection h with h2
    exact h2 ▸ List.get_mem _ _ _

/-- `randomChoice` raises exactly on the empty list. -/
theorem randomChoice_error_iff (idx : Nat) (l : List α) :
    randomChoice idx l = Except.error () ↔ l = [] := by
  cases l <;> simp [randomChoice]

/-- The three possible tie-list outcomes of one root iteration of
`IAMoyenne.get_move`. -/
theorem IAMoyenne.step_snd_cases (partie : MorpionUltime) (joueur : Joueur)
    (acc : XInt × List Coup) (x : Coup) :
    (IAMoyenne.step partie joueur acc x).2 = [x] ∨
      (IAMoyenne.step partie joueur acc x).2 = acc.2 ++ [x] ∨
      (IAMoyenne.step partie joueur acc x).2 = acc.2 := by
  unfold IAMoyenne.step
  dsimp only
  split
  · exact Or.inl rfl
  · split
    · exact Or.inr (Or.inl rfl)
    · exact Or.inr (Or.inr rfl)

/-- Every element of the final tie list of `IAMoyenne.get_move` comes
from the initial accumulator or from the move list. -/
theorem ia_moyenne_fold_mem (partie : MorpionUltime) (joueur : Joueur) :
    ∀ (l : List Coup) (acc : XInt × List Coup) (m : Coup),
      m ∈ (l.foldl (IAMoyenne.step partie joueur) acc).2 → m ∈ acc.2 ∨ m ∈ l := by
  intro l
  induction l with
  | nil => exact fun acc m h => Or.inl h
  | cons x xs ih =>
    intro acc m h
    rw [List.foldl_cons] at h
    rcases ih _ m h with h2 | h2
    · rcases IAMoyenne.step_snd_cases partie joueur acc x with hc | hc | hc <;> rw [hc] at h2
      · simp at h2
        exact Or.inr (h2 ▸ List.mem_cons_self x xs)
      · rcases List.mem_append.mp h2 with h3 | h3
        · exact Or.inl h3
        · simp at h3
          exact Or.inr (h3 ▸ List.mem_cons_self x xs)
      · exact Or.inl h2
    · exact Or.inr (List.mem_cons_of_mem x h2)

/-- The tie list never becomes empty again once non-empty. -/
theorem ia_moyenne_fold_ne_nil (partie : MorpionUltime) (joueur : Joueur) :
    ∀ (l : List Coup) (acc : XInt × List Coup), acc.2 ≠ [] →
      (l.foldl (IAMoyenne.step partie joueur) acc).2 ≠ [] := by
  intro l
  induction l with
  | nil => exact fun acc h => h
  | cons x xs ih =>
    intro acc h
    rw [List.foldl_cons]
    apply ih
    rcases IAMoyenne.step_snd_cases partie joueur acc x with hc | hc | hc <;> rw [hc]
    · simp
    · simp
    · exact h

/-- The first root iteration of `IAMoyenne.get_move` always installs a
tie candidate: a strictly better score resets to `[x]`, an equal `-inf`
score appends `x`. -/
theorem ia_moyenne_premier_non_vide (partie : MorpionUltime) (joueur : Joueur) (x : Coup) :
    (IAMoyenne.step partie joueur (XInt.ninf, []) x).2 ≠ [] := by
  unfold IAMoyenne.step
  dsimp only
  split
  · simp
  case isFalse h =>
    split
    · simp
    case isFalse h2 =>
      exfalso
      cases hsc : IAMoyenne.minimax joueur (IAMoyenne.profondeur_max - 1)
          (cloneApres partie x) false with
      | ninf => exact h2 hsc
      | val v => exact h (by rw [hsc]; rfl)
      | pinf => exact h (by rw [hsc]; rfl)

/-- `IAMoyenne.get_move` raises (instead of returning None) exactly when
the move list is empty, for every outcome of the random draws. -/
theorem ia_moyenne_erreur_iff (partie : MorpionUltime) (joueur : Joueur) (o : AleaOracle) :
    IAMoyenne.get_move joueur o partie = Except.error () ↔
      partie.obtenir_coups_valides = [] := by
  unfold IAMoyenne.get_move
  split
  · exact randomChoice_error_iff o.indice _
  · constructor
    · intro h
      cases hl : partie.obtenir_coups_valides with
      | nil => rfl
      | cons x xs =>
        exfalso
        rw [hl, List.foldl_cons] at h
        have hne := ia_moyenne_fold_ne_nil partie joueur xs
          (IAMoyenne.step partie joueur (XInt.ninf, []) x)
          (ia_moyenne_premier_non_vide partie joueur x)
        exact hne ((randomChoice_error_iff o.indiceEgalite _).mp h)
    · intro h
      rw [h]
      rfl

/-- A non-None greedy selection is an enumerated move. -/
theorem ia_facile_some_mem (partie : MorpionUltime) (joueur : Joueur) (m : Coup)
    (h : IAFacile.get_move joueur partie = some m) : m ∈ partie.obtenir_coups_valides := by
  by_cases hl : partie.obtenir_coups_valides = []
  · exfalso
    unfold IAFacile.get_move at h
    rw [hl] at h
    simp at h
  · obtain ⟨m', p1, p2, hm', hdec, -, -⟩ := ia_facile_premier_maximum partie joueur hl
    rw [h] at hm'
    injection hm' with hmm
    rw [hdec, ← hmm]
    exact List.mem_append_right _ (List.mem_cons_self _ _)

/-- A valid move on a still-running game is accepted. -/
theorem jouer_coup_reussit (s : MorpionUltime) (a b c d : Nat)
    (hv : s.coup_valide a b c d = true) (ht : s.jeu_termine = false) :
    (s.jouer_coup a b c d).1 = true := by
  rw [jouer_coup_reussite_eq s a b c d hv ht]

/-- Counterexample for C3: on the finished board `etatToutNul` the move
list is empty, and `IAMoyenne.get_move` raises (the `random.choice` of
an empty sequence, modelled as `Except.error`) instead of returning
None, on both its random branch and its search branch. -/
theorem ia_moyenne_faute_sur_vide :
    etatToutNul.obtenir_coups_valides = [] ∧
      IAMoyenne.get_move Joueur.X ⟨true, 0, 0⟩ etatToutNul = Except.error () ∧
      IAMoyenne.get_move Joueur.X ⟨false, 0, 0⟩ etatToutNul = Except.error () :=
  ⟨by decide, by decide, by decide⟩

/-- C3 amended: `IAFacile.get_move` returns None exactly when the move
list is empty; on coherent boards so does `IADifficile.get_move`;
`IAMoyenne.get_move` never returns None — for every outcome of its
random draws it raises exactly when the move list is empty, and
otherwise returns a move. -/
theorem strategies_liste_vide :
    (∀ (partie : MorpionUltime) (joueur : Joueur),
      IAFacile.get_move joueur partie = none ↔ partie.obtenir_coups_valides = []) ∧
    (∀ (partie : MorpionUltime) (joueur : Joueur), etatCoherentB partie = true →
      (IADifficile.get_move joueur partie = none ↔ partie.obtenir_coups_valides = [])) ∧
    (∀ (partie : MorpionUltime) (joueur : Joueur) (o : AleaOracle),
      IAMoyenne.get_move joueur o partie = Except.error () ↔
        partie.obtenir_coups_valides = []) := by
  refine ⟨?_, ?_, fun partie joueur o => ia_moyenne_erreur_iff partie joueur o⟩
  · intro partie joueur
    constructor
    · intro h
      by_cases hl : partie.obtenir_coups_valides = []
      · exact hl
      · obtain ⟨m, p1, p2, hm, -, -, -⟩ := ia_facile_premier_maximum partie joueur hl
        rw [h] at hm
        exact absurd hm (by simp)
    · intro h
      unfold IAFacile.get_move
      rw [h]
      rfl
  · intro partie joueur hcoh
    constructor
    · intro h
      cases hl : partie.obtenir_coups_valides with
      | nil => rfl
      | cons x xs =>
        exfalso
        unfold IADifficile.get_move at h
        rw [hl, List.foldl_cons] at h
        have h2 := ia_difficile_fold_none partie joueur xs _ h
        rw [IADifficile.step_snd] at h2
        obtain ⟨v, hval⟩ := minimax_difficile_fini joueur (IADifficile.profondeur_max - 1)
          (cloneApres partie x)
          (coherent_jouer_coup partie x.1 x.2.1 x.2.2.1 x.2.2.2 hcoh)
          (XInt.ninf, none, XInt.ninf).2.2 XInt.pinf false
        rw [hval] at h2
        rw [if_pos (XInt.lt_ninf_val v)] at h2
        exact absurd h2 (by simp)
    · intro h
      unfold IADifficile.get_move
      rw [h]
      rfl

/-- Witness for the amended C3 at the coherent, finished board
`etatToutNul`: all three strategies behave as characterised on its empty
move list. -/
theorem strategies_liste_vide_temoin :
    etatCoherentB etatToutNul = true ∧
      IADifficile.get_move Joueur.X etatToutNul = none ∧
      IAFacile.get_move Joueur.X etatToutNul = none ∧
      IAMoyenne.get_move Joueur.X ⟨false, 1, 2⟩ etatToutNul = Except.error () :=
  ⟨by decide,
   (strategies_liste_vide.2.1 etatToutNul Joueur.X (by decide)).mpr (by decide),
   (strategies_liste_vide.1 etatToutNul Joueur.X).mpr (by decide),
   (strategies_liste_vide.2.2 etatToutNul Joueur.X ⟨false, 1, 2⟩).mpr (by decide)⟩

/-- C10 amended: every non-None (non-raising) selection of the three
strategies is an element of `obtenir_coups_valides` of the board it was
given; on a coherent board it is accepted by `jouer_coup` whenever the
game is not already over — on an already terminal board it is
rejected. -/
theorem selections_membres :
    (∀ (partie : MorpionUltime) (joueur : Joueur) (m : Coup),
      IAFacile.get_move joueur partie = some m → m ∈ partie.obtenir_coups_valides) ∧
    (∀ (partie : MorpionUltime) (joueur : Joueur) (m : Coup),
      IADifficile.get_move joueur partie = some m → m ∈ partie.obtenir_coups_valides) ∧
    (∀ (partie : MorpionUltime) (joueur : Joueur) (o : AleaOracle) (m : Coup),
      IAMoyenne.get_move joueur o partie = Except.ok m → m ∈ partie.obtenir_coups_valides) ∧
    (∀ (partie : MorpionUltime) (m : Coup), etatCoherentB partie = true →
      m ∈ partie.obtenir_coups_valides → partie.jeu_termine = false →
      (partie.jouer_coup m.1 m.2.1 m.2.2.1 m.2.2.2).1 = true) := by
  refine ⟨fun partie joueur m h => ia_facile_some_mem partie joueur m h, ?_, ?_, ?_⟩
  · intro partie joueur m h
    unfold IADifficile.get_move at h
    rcases ia_difficile_fold_mem partie joueur _ _ m h with h2 | h2
    · exact absurd h2 (by simp)
    · exact h2
  · intro partie joueur o m h
    unfold IAMoyenne.get_move at h
    split at h
    · exact randomChoice_mem _ _ _ h
    · have hm := randomChoice_mem _ _ _ h
      rcases ia_moyenne_fold_mem partie joueur _ _ m hm with h2 | h2
      · exact absurd h2 (by simp)
      · exact h2
  · intro partie m hcoh hmem ht
    apply jouer_coup_reussit partie m.1 m.2.1 m.2.2.1 m.2.2.2 _ ht
    rw [coup_valide_global_spec]
    have hc := (mem_obtenir_coups_valides partie m).mp hmem
    unfold etatCoherentB at hcoh
    simp only [Bool.and_eq_true] at hcoh
    obtain ⟨⟨hactif, -⟩, -⟩ := hcoh
    cases hpa : partie.plateau_actif with
    | some sp =>
      rw [hpa] at hc hactif
      obtain ⟨h1, h2, hcv⟩ := hc
      simp only [Bool.and_eq_true, decide_eq_true_eq, Bool.not_eq_true'] at hactif
      obtain ⟨⟨ha, hb⟩, hterm⟩ := hactif
      rw [h1, h2]
      exact ⟨⟨ha, hb⟩, hterm, Or.inr rfl, hcv⟩
    | none =>
      rw [hpa] at hc
      obtain ⟨h1, h2, hterm, hcv⟩ := hc
      exact ⟨⟨h1, h2⟩, hterm, Or.inl rfl, hcv⟩

/-- Witness for the amended C10: the greedy selection on `etatGagneX`
is an enumerated move, and on the coherent initial board the enumerated
move (0,0,1,1) is accepted. -/
theorem selections_membres_temoin :
    (1, 2, 0, 0) ∈ etatGagneX.obtenir_coups_valides ∧
      etatCoherentB MorpionUltime.initial = true ∧
      (MorpionUltime.initial.jouer_coup 0 0 1 1).1 = true :=
  ⟨selections_membres.1 etatGagneX Joueur.X (1, 2, 0, 0) (by decide),
   by decide,
   selections_membres.2.2.2 MorpionUltime.initial (0, 0, 1, 1) (by decide) (by decide)
     (by decide)⟩

/-- Writing one address leaves every other address unchanged. -/
theorem Tas.lire_ecrire_autre (h : Tas) (addr : Nat) (p : PetitPlateau) (x : Nat)
    (hx : x ≠ addr) : (h.ecrire addr p).lire x = h.lire x := by
  unfold Tas.ecrire Tas.lire
  rw [List.getD_eq_getElem?_getD, List.getD_eq_getElem?_getD,
    List.getElem?_set_ne (fun he => hx he.symm)]

/-- Writing never changes the extent of the heap. -/
theorem Tas.longueur_ecrire (h : Tas) (addr : Nat) (p : PetitPlateau) :
    (h.ecrire addr p).length = h.length :=
  List.length_set h addr p

/-- The heap after one heap-level move: unchanged, or a single write at
one of the moving object's own addresses. -/
theorem obj_jouer_coup_tas (o : ObjMorpion) (h : Tas) (a b c d : Nat) :
    (o.jouer_coup h a b c d).2.1 = h ∨
      ∃ (i j : Fin 3) (p : PetitPlateau),
        (o.jouer_coup h a b c d).2.1 = h.ecrire (o.adresses i j) p := by
  unfold ObjMorpion.jouer_coup
  dsimp only
  split_ifs <;>
    first
      | exact Or.inl rfl
      | exact Or.inr ⟨⟨a, ‹a < 3 ∧ b < 3›.1⟩, ⟨b, ‹a < 3 ∧ b < 3›.2⟩, _, rfl⟩

/-- A heap-level move never changes which addresses the object holds. -/
theorem obj_jouer_coup_adresses (o : ObjMorpion) (h : Tas) (a b c d : Nat) :
    (o.jouer_coup h a b c d).2.2.adresses = o.adresses := by
  unfold ObjMorpion.jouer_coup
  dsimp only
  split_ifs <;> rfl

/-- One heap-level move only writes the addresses of its own object,
preserves the heap extent and keeps the object's addresses. -/
theorem obj_jouer_coup_cadre (o : ObjMorpion) (h : Tas) (a b c d : Nat) :
    (∀ x : Nat, (∀ i j, x ≠ o.adresses i j) →
      (o.jouer_coup h a b c d).2.1.lire x = h.lire x) ∧
      (o.jouer_coup h a b c d).2.2.adresses = o.adresses ∧
      (o.jouer_coup h a b c d).2.1.length = h.length := by
  refine ⟨?_, obj_jouer_coup_adresses o h a b c d, ?_⟩
  · intro x hx
    rcases obj_jouer_coup_tas o h a b c d with hh | ⟨i, j, p, hh⟩
    · rw [hh]
    · rw [hh]
      exact Tas.lire_ecrire_autre h _ p x (hx i j)
  · rcases obj_jouer_coup_tas o h a b c d with hh | ⟨i, j, p, hh⟩
    · rw [hh]
    · rw [hh]
      exact Tas.longueur_ecrire h _ p

/-- Reading a freshly appended cell. -/
theorem Tas.lire_append_frais (h : Tas) (l : List PetitPlateau) (k : Nat) :
    (h ++ l).lire (h.length + k) = l.getD k PetitPlateau.initial := by
  unfold Tas.lire
  rw [List.getD_append_right h l _ _ (Nat.le_add_right _ _), Nat.add_sub_cancel_left]

/-- Reading an old cell after an allocation. -/
theorem Tas.lire_append_ancien (h : Tas) (l : List PetitPlateau) (x : Nat)
    (hx : x < h.length) : (h ++ l).lire x = h.lire x := by
  unfold Tas.lire
  rw [List.getD_append h l _ _ hx]

/-- A whole move sequence on one object only writes that object's
addresses and keeps them fixed. -/
theorem obj_appliqueSeq_cadre (coups : List Coup) :
    ∀ (o : ObjMorpion) (h : Tas) (x : Nat), (∀ i j, x ≠ o.adresses i j) →
      (o.appliqueSeq h coups).1.lire x = h.lire x ∧
        (o.appliqueSeq h coups).2.adresses = o.adresses := by
  induction coups with
  | nil => exact fun o h x hx => ⟨rfl, rfl⟩
  | cons mv rest ih =>
    intro o h x hx
    unfold ObjMorpion.appliqueSeq
    rw [List.foldl_cons]
    obtain ⟨hlire, hadr, -⟩ := obj_jouer_coup_cadre o h mv.1 mv.2.1 mv.2.2.1 mv.2.2.2
    have hx2 : ∀ i j, x ≠ (o.jouer_coup h mv.1 mv.2.1 mv.2.2.1 mv.2.2.2).2.2.adresses i j := by
      rw [hadr]
      exact hx
    obtain ⟨h1, h2⟩ := ih (o.jouer_coup h mv.1 mv.2.1 mv.2.2.1 mv.2.2.2).2.2
      (o.jouer_coup h mv.1 mv.2.1 mv.2.2.1 mv.2.2.2).2.1 x hx2
    exact ⟨h1.trans (hlire x hx), h2.trans hadr⟩

/-- Two object/heap pairs with the same scalar attributes and the same
sub-board contents denote the same pure state. -/
theorem ObjMorpion.vue_ext (o o2 : ObjMorpion) (h h2 : Tas)
    (hadr : ∀ i j, h2.lire (o2.adresses i j) = h.lire (o.adresses i j))
    (e1 : o2.joueur_courant = o.joueur_courant) (e2 : o2.plateau_actif = o.plateau_actif)
    (e3 : o2.jeu_termine = o.jeu_termine) (e4 : o2.vainqueur = o.vainqueur) :
    o2.vue h2 = o.vue h := by
  unfold ObjMorpion.vue
  rw [e1, e2, e3, e4]
  congr 1
  funext i j
  exact hadr i j

/-- C8: `dupliquer` yields a board equal in every field whose sub-boards
live at fresh addresses disjoint from the source's: the source's view is
untouched by the allocation, any sequence of heap-level `jouer_coup`
calls on the clone leaves every field of the source unchanged, and
mutating the source never changes the clone. -/
theorem dupliquer_independant (o : ObjMorpion) (h : Tas)
    (hvalid : ∀ i j, o.adresses i j < h.length) :
    ((o.dupliquer h).2.vue (o.dupliquer h).1 = o.vue h) ∧
    (o.vue (o.dupliquer h).1 = o.vue h) ∧
    (∀ i j i' j', (o.dupliquer h).2.adresses i j ≠ o.adresses i' j') ∧
    (∀ coups : List Coup,
      o.vue ((o.dupliquer h).2.appliqueSeq (o.dupliquer h).1 coups).1 = o.vue h) ∧
    (∀ coups : List Coup,
      (o.dupliquer h).2.vue (o.appliqueSeq (o.dupliquer h).1 coups).1 =
        (o.dupliquer h).2.vue (o.dupliquer h).1) := by
  have hfrais : ∀ i j : Fin 3,
      (o.dupliquer h).2.adresses i j = h.length + (3 * i.val + j.val) := by
    intro i j
    unfold ObjMorpion.dupliquer
    dsimp only
    omega
  have hdisj : ∀ i j i' j', (o.dupliquer h).2.adresses i j ≠ o.adresses i' j' := by
    intro i j i' j'
    rw [hfrais i j]
    have := hvalid i' j'
    omega
  have hlit : ∀ i j : Fin 3,
      ((o.dupliquer h).1).lire ((o.dupliquer h).2.adresses i j) = h.lire (o.adresses i j) := by
    intro i j
    rw [hfrais i j]
    unfold ObjMorpion.dupliquer
    dsimp only
    rw [Tas.lire_append_frais]
    fin_cases i <;> fin_cases j <;> rfl
  have hancien : ∀ x, x < h.length → ((o.dupliquer h).1).lire x = h.lire x := by
    intro x hx
    unfold ObjMorpion.dupliquer
    dsimp only
    exact Tas.lire_append_ancien h _ x hx
  refine ⟨?_, ?_, hdisj, ?_, ?_⟩
  · exact ObjMorpion.vue_ext o (o.dupliquer h).2 h (o.dupliquer h).1 hlit rfl rfl rfl rfl
  · exact ObjMorpion.vue_ext o o h (o.dupliquer h).1
      (fun i j => hancien _ (hvalid i j)) rfl rfl rfl rfl
  · intro coups
    refine ObjMorpion.vue_ext o o h _ ?_ rfl rfl rfl rfl
    intro i j
    have hcadre := obj_appliqueSeq_cadre coups (o.dupliquer h).2 (o.dupliquer h).1
      (o.adresses i j) (fun i' j' => fun he => hdisj i' j' i j he.symm)
    rw [hcadre.1]
    exact hancien _ (hvalid i j)
  · intro coups
    refine ObjMorpion.vue_ext (o.dupliquer h).2 (o.dupliquer h).2 (o.dupliquer h).1 _
      ?_ rfl rfl rfl rfl
    intro i j
    have hcadre := obj_appliqueSeq_cadre coups o (o.dupliquer h).1
      ((o.dupliquer h).2.adresses i j) (fun i' j' => hdisj i j i' j')
    rw [hcadre.1]

/-- Witness for C8 on the concrete heap `tasTemoin`: the clone's view
equals the source's, and a move on the clone leaves the source's view
intact. -/
theorem dupliquer_independant_temoin :
    ((objTemoin.dupliquer tasTemoin).2.vue (objTemoin.dupliquer tasTemoin).1 =
        objTemoin.vue tasTemoin) ∧
      objTemoin.vue
        ((objTemoin.dupliquer tasTemoin).2.appliqueSeq (objTemoin.dupliquer tasTemoin).1
          [(0, 0, 1, 1)]).1 = objTemoin.vue tasTemoin :=
  ⟨(dupliquer_independant objTemoin tasTemoin (by decide)).1,
   (dupliquer_independant objTemoin tasTemoin (by decide)).2.2.2.1 [(0, 0, 1, 1)]⟩

/-- Reading back a written address (within the heap). -/
theorem Tas.lire_ecrire_meme (h : Tas) (addr : Nat) (p : PetitPlateau)
    (haddr : addr < h.length) : (h.ecrire addr p).lire addr = p := by
  unfold Tas.ecrire Tas.lire
  rw [List.getD_eq_getElem?_getD, List.getElem?_set_eq_of_lt p haddr]
  rfl

/-- With injective addresses, mutating one heap cell is exactly `setP`
on the denoted state. -/
theorem vue_ecrire (o : ObjMorpion) (h : Tas)
    (hinj : ∀ i j i' j', o.adresses i j = o.adresses i' j' → i = i' ∧ j = j')
    (hvalid : ∀ i j, o.adresses i j < h.length) (i j : Fin 3) (p : PetitPlateau) :
    o.vue (h.ecrire (o.adresses i j) p) = (o.vue h).setP i.val j.val p := by
  unfold ObjMorpion.vue MorpionUltime.setP
  rw [dif_pos ⟨i.isLt, j.isLt⟩]
  simp only [MorpionUltime.mk.injEq, and_true, true_and]
  funext x y
  by_cases hxy : x = (⟨i.val, i.isLt⟩ : Fin 3) ∧ y = (⟨j.val, j.isLt⟩ : Fin 3)
  · rw [if_pos hxy]
    obtain ⟨rfl, rfl⟩ := hxy
    exact Tas.lire_ecrire_meme h _ p (hvalid i j)
  · rw [if_neg hxy]
    apply Tas.lire_ecrire_autre
    intro he
    obtain ⟨h1, h2⟩ := hinj x y i j he
    exact hxy ⟨by rw [h1], by rw [h2]⟩

/-- Bridging lemma: an object's view equals a given state when the
fields match one by one. -/
theorem vue_obj_mk (adr : Fin 3 → Fin 3 → Nat) (jc : Joueur) (pa : Option (Nat × Nat))
    (jt : Bool) (vq : Option Joueur) (h2 : Tas) (t : MorpionUltime)
    (hpl : (fun i j => h2.lire (adr i j)) = t.plateaux)
    (hjc : jc = t.joueur_courant) (hpa : pa = t.plateau_actif)
    (hjt : jt = t.jeu_termine) (hvq : vq = t.vainqueur) :
    ObjMorpion.vue ⟨adr, jc, pa, jt, vq⟩ h2 = t := by
  unfold ObjMorpion.vue
  cases t
  dsimp only at hpl hjc hpa hjt hvq ⊢
  rw [hpl, hjc, hpa, hjt, hvq]

/-- With injective, in-heap addresses the heap-level move is exactly the
pure transition on the denoted state: same success flag, and the final
object and heap denote the pure result — the heap model runs the same
program as the pure embedding. -/
theorem obj_jouer_coup_correspond (o : ObjMorpion) (h : Tas)
    (hinj : ∀ i j i' j', o.adresses i j = o.adresses i' j' → i = i' ∧ j = j')
    (hvalid : ∀ i j, o.adresses i j < h.length) (a b c d : Nat) :
    (o.jouer_coup h a b c d).1 = ((o.vue h).jouer_coup a b c d).1 ∧
      (o.jouer_coup h a b c d).2.2.vue (o.jouer_coup h a b c d).2.1 =
        ((o.vue h).jouer_coup a b c d).2 := by
  by_cases hg : (decide (¬ (o.vue h).coup_valide a b c d = true) ||
      (o.vue h).jeu_termine) = true
  · unfold ObjMorpion.jouer_coup MorpionUltime.jouer_coup
    rw [if_pos hg, if_pos hg]
    exact ⟨rfl, rfl⟩
  · have hv : (o.vue h).coup_valide a b c d = true := by
      by_contra hcv
      exact hg (by simp [hcv])
    have hab : a < 3 ∧ b < 3 := ((coup_valide_global_spec _ a b c d).mp hv).1
    have hok : (((o.vue h).getP a b).jouer_coup c d (o.vue h).joueur_courant).1 = true := by
      rw [PetitPlateau.jouer_coup_fst]
      exact ((coup_valide_global_spec _ a b c d).mp hv).2.2.2
    have hvue2 : o.vue (h.ecrire (o.adresses ⟨a, hab.1⟩ ⟨b, hab.2⟩)
        (((o.vue h).getP a b).jouer_coup c d (o.vue h).joueur_courant).2) =
        (o.vue h).setP a b (((o.vue h).getP a b).jouer_coup c d (o.vue h).joueur_courant).2 :=
      vue_ecrire o h hinj hvalid ⟨a, hab.1⟩ ⟨b, hab.2⟩ _
    have hpl : (fun i j => (h.ecrire (o.adresses ⟨a, hab.1⟩ ⟨b, hab.2⟩)
        (((o.vue h).getP a b).jouer_coup c d (o.vue h).joueur_courant).2).lire
          (o.adresses i j)) =
        (((o.vue h).setP a b
          (((o.vue h).getP a b).jouer_coup c d
            (o.vue h).joueur_courant).2).mettre_a_jour_etat_global).plateaux := by
      have h0 := congrArg MorpionUltime.plateaux hvue2
      rw [mettre_a_jour_plateaux]
      exact h0
    have hjc : ((((o.vue h).setP a b
        (((o.vue h).getP a b).jouer_coup c d
          (o.vue h).joueur_courant).2).mettre_a_jour_etat_global)).joueur_courant =
        o.joueur_courant :=
      (mettre_a_jour_champs _).2.trans (setP_champs _ _ _ _).1
    unfold ObjMorpion.jouer_coup MorpionUltime.jouer_coup
    rw [if_neg hg, if_neg hg]
    dsimp only
    rw [dif_pos hab]
    simp only [hok, not_true_eq_false, if_false, hvue2]
    constructor
    · split <;> rfl
    · split
      · exact vue_obj_mk _ _ _ _ _ _ _ hpl (congrArg Joueur.adversaire hjc.symm) rfl rfl rfl
      · exact vue_obj_mk _ _ _ _ _ _ _ hpl hjc.symm rfl rfl rfl
